import Mathlib

/-!
Shallow embedding of the structure-building engine of the ExaminerAI
repository (src/documentStructure.py): heading detection, content-type
classification and the stack-based hierarchy builder, together with
theorems settling the frozen claims about them.

Python regular expressions are hand-compiled to deterministic functions
on character lists; each definition carries the pattern it embeds.
-/

/-- Python str.strip() / regex \s whitespace for the ASCII range plus the
    two ASCII control whitespace characters Python also strips.  Lines come
    from splitting on newline, so no newline occurs inside a line. -/
def pyIsSpace (c : Char) : Bool :=
  c = ' ' || c = '\t' || c = '\n' || c = '\r' || c = '\x0b' || c = '\x0c'

/-- Strip pyIsSpace characters from both ends of a character list
    (Python str.strip()). -/
def stripChars (l : List Char) : List Char :=
  ((l.dropWhile pyIsSpace).reverse.dropWhile pyIsSpace).reverse

/-- Python line.strip() on a String. -/
def pyStrip (s : String) : String := ⟨stripChars s.data⟩

/-- Numeric value of a nonempty digit string, as Python int() would parse it. -/
def digitsToNat (l : List Char) : Nat :=
  l.foldl (fun acc c => 10 * acc + (c.toNat - 48)) 0

/-- Case-insensitive literal word match: consumes the word from the front of
    the input (regex literal under re.IGNORECASE), returning the rest. -/
def matchWordCI (w : String) (l : List Char) : Option (List Char) :=
  if (l.take w.length).map Char.toLower = w.data then some (l.drop w.length)
  else none

/-- The tail pattern \s+(.+)$ matches a remainder r iff r starts with a
    whitespace character and has length at least 2 (the dot matches any
    character of these newline-free lines; backtracking lets the final
    group absorb trailing whitespace). -/
def wsThenRest (r : List Char) : Bool :=
  match r with
  | c :: t => pyIsSpace c && !t.isEmpty
  | [] => false

/-! ## HeadingDetector patterns -/

/-- HEADING_MARKER = ^\[HEADING\s+(\d+)\]\s*(.+)$ .
    Returns (numeral digits, title) where title is group(2).strip(); for a
    nonempty remainder after the closing bracket, group(2).strip() equals the
    strip of that whole remainder. -/
def markerMatch (s : List Char) : Option (List Char × List Char) :=
  match s with
  | '[' :: 'H' :: 'E' :: 'A' :: 'D' :: 'I' :: 'N' :: 'G' :: rest =>
    if (rest.takeWhile pyIsSpace).isEmpty then none else
    let r1 := rest.dropWhile pyIsSpace
    let ds := r1.takeWhile Char.isDigit
    if ds.isEmpty then none else
    match r1.dropWhile Char.isDigit with
    | ']' :: r2 => if r2.isEmpty then none else some (ds, stripChars r2)
    | _ => none
  | _ => none

/-- Consume the (?:\.\d+)* part of NUMBERED_HEADING with maximal munch,
    accumulating the numeral; fueled by the remaining length so that the
    definition is structural and kernel-reducible. -/
def numTail : Nat → List Char → List Char → List Char × List Char
  | 0, acc, r => (acc, r)
  | fuel + 1, acc, r =>
    match r with
    | '.' :: r2 =>
      let ds := r2.takeWhile Char.isDigit
      if ds.isEmpty then (acc, '.' :: r2)
      else numTail fuel (acc ++ '.' :: ds) (r2.dropWhile Char.isDigit)
    | _ => (acc, r)

/-- NUMBERED_HEADING = ^(\d+(?:\.\d+)*)\s+(.+)$ .
    Returns (numeral, title).  The numeral is the maximal dotted-digit
    prefix; backtracking to a shorter numeral can never succeed because a
    shorter numeral is followed by a dot or digit, never whitespace. -/
def numberedMatch (s : List Char) : Option (List Char × List Char) :=
  let ds := s.takeWhile Char.isDigit
  if ds.isEmpty then none else
  let rest := s.dropWhile Char.isDigit
  let (num, r) := numTail rest.length ds rest
  if wsThenRest r then some (num, stripChars r) else none

/-- HEADING_KEYWORDS pattern 1: ^(?:chapter|unit|section|part)\s+\d+
    under re.IGNORECASE, as a prefix match (re.match). -/
def kwNumberMatch (ls : List Char) : Bool :=
  ["chapter", "unit", "section", "part"].any fun w =>
    w.data.isPrefixOf ls &&
      (let r := ls.drop w.length
       !(r.takeWhile pyIsSpace).isEmpty &&
         (match r.dropWhile pyIsSpace with
          | c :: _ => c.isDigit
          | [] => false))

/-- HEADING_KEYWORDS patterns 2 and 3: a bare keyword prefix,
    case-insensitive. -/
def kwWordMatch (ls : List Char) : Bool :=
  ["introduction", "conclusion", "summary", "overview",
   "appendix", "references", "bibliography"].any fun w => w.data.isPrefixOf ls

/-- Any HEADING_KEYWORDS pattern matches the (stripped) line; comparison is
    done on the lowercased line, embedding re.IGNORECASE. -/
def keywordMatch (s : List Char) : Bool :=
  let ls := s.map Char.toLower
  kwNumberMatch ls || kwWordMatch ls

/-! ## ContentTypeIdentifier patterns -/

/-- BULLET_PATTERN = ^[\s]*[•·▪▸▹►\-\*]\s+(.+)$ , applied to the raw line. -/
def bulletChar (c : Char) : Bool :=
  c = '•' || c = '·' || c = '▪' || c = '▸' || c = '▹' || c = '►' ||
  c = '-' || c = '*'

def bulletMatch (s : List Char) : Bool :=
  match s.dropWhile pyIsSpace with
  | c :: r => bulletChar c && wsThenRest r
  | [] => false

/-- NUMBERED_LIST_PATTERN = ^[\s]*\d+[\).]\s+(.+)$ , applied to the raw line. -/
def numListMatch (s : List Char) : Bool :=
  let r := s.dropWhile pyIsSpace
  let ds := r.takeWhile Char.isDigit
  !ds.isEmpty &&
    (match r.dropWhile Char.isDigit with
     | p :: rr => (p = ')' || p = '.') && wsThenRest rr
     | [] => false)

/-- Definition pattern 1: ^([A-Z][^:]{1,50}):\s+(.+)$ (case-sensitive).
    The colon closing the first group is necessarily the first colon of the
    line, since the group may not contain one; the group is the text before
    it, of length 2..51 counting the leading capital. -/
def defP1 (s : List Char) : Option (List Char × List Char) :=
  match s with
  | c :: rest =>
    if 'A' ≤ c && c ≤ 'Z' then
      let pre := rest.takeWhile (fun x => x ≠ ':')
      match rest.dropWhile (fun x => x ≠ ':') with
      | ':' :: r =>
        if 1 ≤ pre.length && pre.length ≤ 50 && wsThenRest r then
          some (stripChars (c :: pre), stripChars r)
        else none
      | _ => none
    else none
  | [] => none

/-- Tail of definition pattern 2 after the first group:
    \s+is\s+defined\s+as\s+(.+)$ under re.IGNORECASE.  Whitespace runs and
    literals alternate, so the match is deterministic. -/
def isDefinedAsTail (r : List Char) : Option (List Char) :=
  if (r.takeWhile pyIsSpace).isEmpty then none else
  match matchWordCI "is" (r.dropWhile pyIsSpace) with
  | none => none
  | some r1 =>
    if (r1.takeWhile pyIsSpace).isEmpty then none else
    match matchWordCI "defined" (r1.dropWhile pyIsSpace) with
    | none => none
    | some r2 =>
      if (r2.takeWhile pyIsSpace).isEmpty then none else
      match matchWordCI "as" (r2.dropWhile pyIsSpace) with
      | none => none
      | some r3 => if wsThenRest r3 then some (stripChars r3) else none

/-- Tail of definition pattern 3 after the first group:
    \s+refers?\s+to\s+(.+)$ under re.IGNORECASE.  The optional s is tried
    greedily first, as the regex engine does. -/
def refersToTail (r : List Char) : Option (List Char) :=
  if (r.takeWhile pyIsSpace).isEmpty then none else
  match matchWordCI "refer" (r.dropWhile pyIsSpace) with
  | none => none
  | some r1 =>
    let toTail := fun (rr : List Char) =>
      if (rr.takeWhile pyIsSpace).isEmpty then none else
      match matchWordCI "to" (rr.dropWhile pyIsSpace) with
      | none => none
      | some r3 => if wsThenRest r3 then some (stripChars r3) else none
    match r1 with
    | c :: r2 =>
      if c.toLower = 's' then
        match toTail r2 with
        | some d => some d
        | none => toTail r1
      else toTail r1
    | [] => none

/-- Greedy search for the first-group length of patterns 2 and 3:
    [A-Z][^.]{1,50} under re.IGNORECASE (so any ASCII letter starts it),
    trying the longest group first as the greedy engine does.  k counts the
    characters after the leading letter. -/
def defGroupSearch (tail : List Char → Option (List Char)) :
    Nat → Char → List Char → Option (List Char × List Char)
  | 0, _, _ => none
  | k + 1, c0, rest =>
    let pre := rest.take (k + 1)
    if pre.length = k + 1 && pre.all (fun x => x ≠ '.') then
      match tail (rest.drop (k + 1)) with
      | some d => some (stripChars (c0 :: pre), d)
      | none => defGroupSearch tail k c0 rest
    else defGroupSearch tail k c0 rest

/-- Definition pattern 2: ^([A-Z][^.]{1,50})\s+is\s+defined\s+as\s+(.+)$
    under re.IGNORECASE. -/
def defP2 (s : List Char) : Option (List Char × List Char) :=
  match s with
  | c :: rest => if c.isAlpha then defGroupSearch isDefinedAsTail 50 c rest else none
  | [] => none

/-- Definition pattern 3: ^([A-Z][^.]{1,50})\s+refers?\s+to\s+(.+)$
    under re.IGNORECASE. -/
def defP3 (s : List Char) : Option (List Char × List Char) :=
  match s with
  | c :: rest => if c.isAlpha then defGroupSearch refersToTail 50 c rest else none
  | [] => none

/-- Definition pattern 4: ^Definition\s+of\s+([^:]+):\s*(.*)$ under
    re.IGNORECASE.  After the literal of, at least one whitespace character
    precedes the group and the group runs to the first colon; when greedy
    whitespace would swallow the whole group the engine backtracks, so the
    matched group (before stripping) is the text strictly between the first
    post-of character and the first colon, which must leave the colon at
    index at least 2 of that remainder. -/
def defP4 (s : List Char) : Option (List Char × List Char) :=
  match matchWordCI "definition" s with
  | none => none
  | some r0 =>
    if (r0.takeWhile pyIsSpace).isEmpty then none else
    match matchWordCI "of" (r0.dropWhile pyIsSpace) with
    | none => none
    | some r3 =>
      match r3 with
      | c :: r4 =>
        if pyIsSpace c then
          let pre := r4.takeWhile (fun x => x ≠ ':')
          match r4.dropWhile (fun x => x ≠ ':') with
          | ':' :: r5 =>
            if pre.isEmpty then none
            else some (stripChars pre, stripChars (r5.dropWhile pyIsSpace))
          | _ => none
        else none
      | [] => none

/-- ContentTypeIdentifier.identify_definition: try the four patterns in
    order on the stripped line, returning {term, definition} of the first
    match (both groups stripped, as the source does). -/
def identify_definition (line : String) : Option (String × String) :=
  let s := stripChars line.data
  match defP1 s with
  | some (t, d) => some (⟨t⟩, ⟨d⟩)
  | none =>
    match defP2 s with
    | some (t, d) => some (⟨t⟩, ⟨d⟩)
    | none =>
      match defP3 s with
      | some (t, d) => some (⟨t⟩, ⟨d⟩)
      | none =>
        match defP4 s with
        | some (t, d) => some (⟨t⟩, ⟨d⟩)
        | none => none

/-- The counting loop of identify_content_type: bullet matches are counted
    first, numbered-list matches only in the elif branch. -/
def countBlock (lines : List String) : Nat × Nat :=
  lines.foldl
    (fun acc line =>
      if bulletMatch line.data then (acc.1 + 1, acc.2)
      else if numListMatch line.data then (acc.1, acc.2 + 1)
      else acc)
    (0, 0)

/-- ContentTypeIdentifier.identify_content_type.  The Python comparisons
    count > len(lines) * 0.5 are exact half-comparisons (multiplying an int
    by the float 0.5 only shifts the exponent), embedded as
    2 * count > length. -/
def identify_content_type (lines : List String) : String :=
  match lines with
  | [] => "paragraph"
  | f :: _ =>
    let first_line := pyStrip f
    if (identify_definition first_line).isSome then "definition"
    else
      let c := countBlock lines
      if 2 * c.1 > lines.length then "bullet_block"
      else if 2 * c.2 > lines.length then "list"
      else "paragraph"

/-! ## Python dict values, as read by detect_heading

The formatting_notes dict is consulted with the truthiness test
if formatting_info, the membership test 'is_heading' in formatting_info,
the read formatting_info['is_heading'] and
formatting_info.get('heading_level', 2).  Keys occurring in practice are
strings or integers; values are booleans, integers or nested dicts. -/

inductive PyKey where
  | str (s : String)
  | int (n : Int)
  deriving DecidableEq

inductive PyVal where
  | bool (b : Bool)
  | int (n : Int)
  | dict (entries : List (PyKey × PyVal))

/-- Python truthiness of the modeled values. -/
def pyTruthy : PyVal → Bool
  | .bool b => b
  | .int n => n ≠ 0
  | .dict d => !d.isEmpty

abbrev PyDict := List (PyKey × PyVal)

/-- Dict lookup (keys are unique in a Python dict; the first hit decides). -/
def dictLookup (k : PyKey) : PyDict → Option PyVal
  | [] => none
  | (k', v) :: rest => if k' = k then some v else dictLookup k rest

/-- The level the detector takes from formatting_info.get('heading_level', 2).
    A boolean is a Python int (True is 1); a dict-valued level would make the
    builder's later level comparison raise in Python and is never produced
    by the pipeline, so the dict arm keeps the default. -/
def hintLevel : Option PyVal → Int
  | some (.int n) => n
  | some (.bool b) => if b then 1 else 0
  | some (.dict _) => 2
  | none => 2

/-! ## HeadingDetector.detect_heading -/

structure HeadingInfo where
  type : String
  level : Int
  title : String
  original : String
  number : Option String
  deriving DecidableEq

/-- Whether the formatted-signal branch fires:
    formatting_info is truthy, contains the key 'is_heading', and that
    entry is truthy.  The prev_line/next_line parameters of the source are
    received but never read, so they are not modeled. -/
def formattedFires (fmt : Option PyDict) : Bool :=
  match fmt with
  | none => false
  | some d =>
    !d.isEmpty &&
      (match dictLookup (.str "is_heading") d with
       | some v => pyTruthy v
       | none => false)

/-- HeadingDetector.detect_heading: strip the line; blank lines never match;
    then the priority chain formatted, marker, numbered, keyword. -/
def detect_heading (line : String) (fmt : Option PyDict) : Option HeadingInfo :=
  let s := pyStrip line
  if s = "" then none
  else if formattedFires fmt then
    let lvl := hintLevel (dictLookup (.str "heading_level") ((fmt.getD []) : PyDict))
    some ⟨"formatted", lvl, s, s, none⟩
  else
    match markerMatch s.data with
    | some (ds, t) => some ⟨"marker", (digitsToNat ds : Int), ⟨t⟩, s, none⟩
    | none =>
      match numberedMatch s.data with
      | some (num, t) =>
        let level : Int := (num.countP (fun c => c = '.')) + 1
        some ⟨"numbered", level, ⟨t⟩, s, some ⟨num⟩⟩
      | none =>
        if keywordMatch s.data then some ⟨"keyword", 1, s, s, none⟩ else none

/-! ## Data model: Topic, Chapter, StructuredDocument

Topic.subsections is a list of Topics; it is modeled with a dedicated
mutual list type so that recursion over the tree stays structural and
kernel-reducible. -/

mutual
inductive Topic where
  | mk (title : String) (level : Int) (content : String) (content_type : String)
       (line_start : Int) (line_end : Int) (subsections : TopicList)

inductive TopicList where
  | nil
  | cons (t : Topic) (ts : TopicList)
end

mutual
def topicBeq : Topic → Topic → Bool
  | .mk a b c d e f g, .mk a' b' c' d' e' f' g' =>
    a = a' && b = b' && c = c' && d = d' && e = e' && f = f' && topicListBeq g g'

def topicListBeq : TopicList → TopicList → Bool
  | .nil, .nil => true
  | .cons t ts, .cons u us => topicBeq t u && topicListBeq ts us
  | _, _ => false
end

mutual
theorem topicBeq_correct : ∀ a b, topicBeq a b = true ↔ a = b
  | .mk a b c d e f g, .mk a' b' c' d' e' f' g' => by
    simp only [topicBeq, Bool.and_eq_true, decide_eq_true_eq, Topic.mk.injEq]
    constructor
    · rintro ⟨⟨⟨⟨⟨⟨h1, h2⟩, h3⟩, h4⟩, h5⟩, h6⟩, h7⟩
      exact ⟨h1, h2, h3, h4, h5, h6, (topicListBeq_correct g g').mp h7⟩
    · rintro ⟨h1, h2, h3, h4, h5, h6, h7⟩
      exact ⟨⟨⟨⟨⟨⟨h1, h2⟩, h3⟩, h4⟩, h5⟩, h6⟩, (topicListBeq_correct g g').mpr h7⟩

theorem topicListBeq_correct : ∀ a b, topicListBeq a b = true ↔ a = b
  | .nil, .nil => by simp [topicListBeq]
  | .nil, .cons _ _ => by simp [topicListBeq]
  | .cons _ _, .nil => by simp [topicListBeq]
  | .cons t ts, .cons u us => by
    simp only [topicListBeq, Bool.and_eq_true, TopicList.cons.injEq]
    rw [topicBeq_correct, topicListBeq_correct]
end

instance : DecidableEq Topic := fun a b =>
  decidable_of_iff (topicBeq a b = true) (topicBeq_correct a b)

instance : DecidableEq TopicList := fun a b =>
  decidable_of_iff (topicListBeq a b = true) (topicListBeq_correct a b)

def Topic.title : Topic → String
  | .mk t _ _ _ _ _ _ => t

def Topic.level : Topic → Int
  | .mk _ l _ _ _ _ _ => l

def Topic.content : Topic → String
  | .mk _ _ c _ _ _ _ => c

def Topic.content_type : Topic → String
  | .mk _ _ _ ct _ _ _ => ct

def Topic.line_start : Topic → Int
  | .mk _ _ _ _ s _ _ => s

def Topic.line_end : Topic → Int
  | .mk _ _ _ _ _ e _ => e

def Topic.subsections : Topic → TopicList
  | .mk _ _ _ _ _ _ subs => subs

/-- Append a topic at the end of a TopicList (Python list.append). -/
def TopicList.append (ts : TopicList) (t : Topic) : TopicList :=
  match ts with
  | .nil => .cons t .nil
  | .cons u us => .cons u (us.append t)

/-- Last element of a TopicList, if any. -/
def TopicList.lastOption : TopicList → Option Topic
  | .nil => none
  | .cons t .nil => some t
  | .cons _ (.cons u us) => TopicList.lastOption (.cons u us)

structure Chapter where
  title : String
  level : Int
  sections : TopicList
  line_start : Int
  line_end : Int
  deriving DecidableEq

/-! ## StructuredDocumentBuilder -/

mutual
/-- StructuredDocumentBuilder._get_last_line: recursively the last line of a
    topic's chain of last subsections. -/
def get_last_line : Topic → Int
  | .mk _ _ _ _ _ e subs => lastLineAux e subs

def lastLineAux : Int → TopicList → Int
  | e, .nil => e
  | _, .cons t .nil => get_last_line t
  | e, .cons _ (.cons u us) => lastLineAux e (.cons u us)
end

/-- A node of the hierarchy stack: Chapter or Topic (the isinstance cases of
    the source). -/
inductive SNode where
  | chap (c : Chapter)
  | top (t : Topic)
  deriving DecidableEq

/-- Append a child to a stack node: to sections for a Chapter, to
    subsections for a Topic (lines 293-296 and 375-378 of the source). -/
def attachChild (n : SNode) (t : Topic) : SNode :=
  match n with
  | .chap c => .chap { c with sections := c.sections.append t }
  | .top (.mk a b c d e f subs) => .top (.mk a b c d e f (subs.append t))

/-- Builder state during the single pass.  The stack is kept top-first
    (head = Python hierarchy_stack[-1]).  Children accumulate inside the
    open stack nodes and are folded into the parent when a node is popped;
    a popped Chapter goes to finished, a popped Topic with no parent below
    is the orphan the source never attaches anywhere. -/
structure BuildSt where
  finished : List Chapter
  stack : List (Int × SNode)
  block : List String
  blockStart : Nat
  blanks : Nat

def initSt : BuildSt := ⟨[], [], [], 0, 0⟩

/-- Pop one stack entry, folding it into its parent (or into finished for a
    Chapter).  In the source the popped node is already attached via
    references; folding realizes the same tree. -/
def popOnce (st : BuildSt) : BuildSt :=
  match st.stack with
  | [] => st
  | (_, .chap c) :: rest => { st with stack := rest, finished := st.finished ++ [c] }
  | (_, .top t) :: (pl, pn) :: rest => { st with stack := (pl, attachChild pn t) :: rest }
  | (_, .top _) :: [] => { st with stack := [] }

/-- Pop every entry (used when a level-1 heading resets the stack and at the
    end of the pass); fueled by the stack length. -/
def collapseN : Nat → BuildSt → BuildSt
  | 0, st => st
  | n + 1, st => collapseN n (popOnce st)

def collapseAll (st : BuildSt) : BuildSt := collapseN st.stack.length st

/-- The while-pop of lines 277-278: pop while the stack top's level is ≥ the
    new heading's level. -/
def popWhileN : Nat → Int → BuildSt → BuildSt
  | 0, _, st => st
  | n + 1, lvl, st =>
    match st.stack with
    | (l, _) :: _ => if l ≥ lvl then popWhileN n lvl (popOnce st) else st
    | [] => st

def popWhileGE (lvl : Int) (st : BuildSt) : BuildSt := popWhileN st.stack.length lvl st

/-- The title computed for a flushed content block (lines 354-361):
    the extracted term for definitions, else first line truncated to 50
    characters with an ellipsis when longer than 50 — but only when the
    first line is shorter than 100 characters; otherwise it stays empty. -/
def contentTitle (ctype : String) (blk : List String) : String :=
  match blk with
  | [] => ""
  | f :: _ =>
    if ctype = "definition" then
      match identify_definition f with
      | some (term, _) => term
      | none => ""
    else if f.length < 100 then
      ⟨f.data.take 50⟩ ++ (if f.length > 50 then "..." else "")
    else ""

/-- StructuredDocumentBuilder._add_content_to_hierarchy. -/
def add_content_to_hierarchy (st : BuildSt) (blk : List String)
    (line_start : Nat) (line_end : Int) : BuildSt :=
  match st.stack, blk with
  | [], _ => st
  | _, [] => st
  | (lvl, node) :: rest, _ :: _ =>
    let ctype := identify_content_type blk
    let content := String.intercalate "\n" blk
    let title := contentTitle ctype blk
    let topic : Topic := .mk title (lvl + 1) content ctype (line_start : Int) line_end .nil
    { st with stack := (lvl, attachChild node topic) :: rest }

/-- The blank-line branch of the loop (lines 230-241): count the blank,
    and on the second consecutive blank flush a pending nonempty buffer to a
    nonempty stack, spanning up to the line before the blank run. -/
def blankStep (i : Nat) (st : BuildSt) : BuildSt :=
  if st.blanks + 1 ≥ 2 && !st.block.isEmpty && !st.stack.isEmpty then
    { add_content_to_hierarchy st st.block st.blockStart ((i : Int) - (st.blanks + 1)) with
        block := [], blanks := st.blanks + 1 }
  else { st with blanks := st.blanks + 1 }

/-- The flush performed when a heading is found (lines 251-259): only when
    both buffer and stack are nonempty; the buffer is then cleared. -/
def flushAtHeading (i : Nat) (st : BuildSt) : BuildSt :=
  if !st.block.isEmpty && !st.stack.isEmpty then
    { add_content_to_hierarchy st st.block st.blockStart ((i : Int) - 1) with block := [] }
  else st

/-- The stack update for a detected heading (lines 261-299): level 1 resets
    the stack to a fresh chapter; any other level pops while the top's level
    is ≥ the new one and pushes the new heading Topic. -/
def applyHeading (i : Nat) (h : HeadingInfo) (st : BuildSt) : BuildSt :=
  if h.level = 1 then
    { collapseAll st with stack := [((1 : Int), .chap ⟨h.title, 1, .nil, (i : Int), 0⟩)] }
  else
    { popWhileGE h.level st with stack :=
        (h.level, .top (.mk h.title h.level "" "heading" (i : Int) (i : Int) .nil)) ::
          (popWhileGE h.level st).stack }

/-- One iteration of the build loop (lines 224-304) for line number i. -/
def buildStep (fmt : Option PyDict) (i : Nat) (line : String) (st : BuildSt) : BuildSt :=
  if pyStrip line = "" then blankStep i st
  else
    let st0 := { st with blanks := 0 }
    match detect_heading line fmt with
    | none => { st0 with block := st0.block ++ [line] }
    | some h => { applyHeading i h (flushAtHeading i st0) with blockStart := i + 1 }

def buildLoop (fmt : Option PyDict) : List String → Nat → BuildSt → BuildSt
  | [], _, st => st
  | l :: ls, i, st => buildLoop fmt ls (i + 1) (buildStep fmt i l st)

/-- The deferred line_end of a Chapter (lines 316-320). -/
def chapterEnd (c : Chapter) : Int :=
  match c.sections.lastOption with
  | none => c.line_start
  | some t => get_last_line t

/-- StructuredDocumentBuilder.build, restricted to the chapter list (the
    metadata dict copies input fields verbatim and no claim touches it).
    The caller splits raw_text on newline; the line list is the input here. -/
def buildChapters (lines : List String) (fmt : Option PyDict) : List Chapter :=
  let st := buildLoop fmt lines 0 initSt
  let st :=
    if !st.block.isEmpty && !st.stack.isEmpty then
      add_content_to_hierarchy st st.block st.blockStart ((lines.length : Int) - 1)
    else st
  let st := collapseAll st
  st.finished.map fun c => { c with line_end := chapterEnd c }

/-! ## Helper lemmas -/

theorem stripChars_eq_rdropWhile (l : List Char) :
    stripChars l = List.rdropWhile pyIsSpace (l.dropWhile pyIsSpace) := rfl

/-- Stripping is idempotent (Python strip().strip() = strip()). -/
theorem stripChars_idem (l : List Char) : stripChars (stripChars l) = stripChars l := by
  rw [stripChars_eq_rdropWhile, stripChars_eq_rdropWhile]
  have h1 : List.dropWhile pyIsSpace
      (List.rdropWhile pyIsSpace (l.dropWhile pyIsSpace)) =
      List.rdropWhile pyIsSpace (l.dropWhile pyIsSpace) := by
    rw [List.dropWhile_eq_self_iff]
    intro hl hp
    obtain ⟨t, ht⟩ := List.rdropWhile_prefix pyIsSpace (l.dropWhile pyIsSpace)
    cases hS : List.rdropWhile pyIsSpace (l.dropWhile pyIsSpace) with
    | nil => rw [hS] at hl; simp at hl
    | cons a s =>
      rw [hS] at ht
      have hA : l.dropWhile pyIsSpace = a :: (s ++ t) := by rw [← ht]; simp
      have hne : l.dropWhile pyIsSpace ≠ [] := by rw [hA]; simp
      have hhead := List.head_dropWhile_not pyIsSpace l hne
      have hha : (l.dropWhile pyIsSpace).head hne = a := by simp [hA]
      rw [hha] at hhead
      have hpa : pyIsSpace a = true := by
        have : (List.rdropWhile pyIsSpace (l.dropWhile pyIsSpace)).get ⟨0, hl⟩ = a := by
          simp [hS]
        rwa [this] at hp
      simp [hpa] at hhead
  rw [h1, List.rdropWhile_idempotent]

theorem pyStrip_idem (s : String) : pyStrip (pyStrip s) = pyStrip s := by
  simp [pyStrip, stripChars_idem]

/-- A bullet line is never a numbered-list line: the first non-space
    character would have to be both a bullet glyph and a digit. -/
theorem bullet_not_numList (l : List Char) (h : bulletMatch l = true) :
    numListMatch l = false := by
  unfold bulletMatch at h
  unfold numListMatch
  cases hd : l.dropWhile pyIsSpace with
  | nil => rw [hd] at h; simp at h
  | cons c r =>
    rw [hd] at h
    simp only [Bool.and_eq_true] at h
    have hc : c.isDigit = false := by
      have hb := h.1
      simp only [bulletChar, Bool.or_eq_true, decide_eq_true_eq] at hb
      rcases hb with (((((((rfl | rfl) | rfl) | rfl) | rfl) | rfl) | rfl) | rfl) <;> decide
    simp [List.takeWhile, hc]

/-- The elif counting loop equals two independent pattern counts: the elif
    never hides a numbered-list line because the patterns are disjoint. -/
theorem countBlock_eq (ls : List String) :
    countBlock ls = (ls.countP (fun l => bulletMatch l.data),
                     ls.countP (fun l => numListMatch l.data)) := by
  suffices h : ∀ (acc : Nat × Nat), ls.foldl
      (fun acc line =>
        if bulletMatch line.data then (acc.1 + 1, acc.2)
        else if numListMatch line.data then (acc.1, acc.2 + 1)
        else acc) acc =
      (acc.1 + ls.countP (fun l => bulletMatch l.data),
       acc.2 + ls.countP (fun l => numListMatch l.data)) by
    have := h (0, 0)
    simpa [countBlock] using this
  induction ls with
  | nil => intro acc; simp
  | cons l ls ih =>
    intro acc
    simp only [List.foldl_cons, List.countP_cons]
    by_cases hb : bulletMatch l.data = true
    · have hn := bullet_not_numList l.data hb
      rw [if_pos hb, ih]
      simp [hb, hn]
      omega
    · rw [if_neg hb]
      by_cases hn : numListMatch l.data = true
      · rw [if_pos hn, ih]
        simp only [Bool.not_eq_true] at hb
        simp [hb, hn]
        omega
      · rw [if_neg hn, ih]
        simp only [Bool.not_eq_true] at hb hn
        simp [hb, hn]

/-- The ordered first-match of the four definition patterns succeeds iff
    some pattern matches. -/
theorem identify_definition_isSome (s : String) :
    (identify_definition s).isSome =
      ((defP1 (stripChars s.data)).isSome || (defP2 (stripChars s.data)).isSome ||
       (defP3 (stripChars s.data)).isSome || (defP4 (stripChars s.data)).isSome) := by
  unfold identify_definition
  cases h1 : defP1 (stripChars s.data) with
  | some p => cases p; simp [h1]
  | none =>
    cases h2 : defP2 (stripChars s.data) with
    | some p => cases p; simp [h1, h2]
    | none =>
      cases h3 : defP3 (stripChars s.data) with
      | some p => cases p; simp [h1, h2, h3]
      | none =>
        cases h4 : defP4 (stripChars s.data) with
        | some p => cases p; simp [h1, h2, h3, h4]
        | none => simp [h1, h2, h3, h4]

/-! ## Claims -/

/-- C10: identify_content_type on an empty list of lines returns paragraph;
    the first-line access is guarded, so the call is total. -/
theorem empty_block_is_paragraph : identify_content_type [] = "paragraph" := rfl

/-- C1: on Scenario A's line sequence the builder produces no chapters at
    all, not the two chapters the claim describes: the numbered-heading
    pattern requires whitespace immediately after the numeral, so the
    trailing dot of 1. Intro defeats it, no heading is ever detected, and
    the detector also returns nothing for the individual lines. -/
theorem scenarioA_produces_no_chapters :
    buildChapters ["1. Intro", "Hello world", "", "", "2. Body", "More text"] none = [] ∧
      detect_heading "1. Intro" none = none ∧ detect_heading "2. Body" none = none := by
  refine ⟨by decide, by decide, by decide⟩

/-- C2 counterexample: a content line before the first level-1 heading is
    not dropped — the flush at a heading is skipped when the stack is empty
    without clearing the buffer, so the pre-heading line reappears inside
    the first chapter's content block. -/
theorem preheading_content_reaches_first_chapter :
    buildChapters ["pre text", "1 Ch", "tail"] none =
      [⟨"Ch", 1, .cons (.mk "pre text" 2 "pre text\ntail" "paragraph" 2 2 .nil) .nil, 1, 2⟩] ∧
      ("pre text".data.isPrefixOf "pre text\ntail".data) = true := by
  refine ⟨by decide, by decide⟩

/-- C3 counterexample: the same carried-over buffer produces a content
    Topic whose line_start (2) exceeds its line_end (1): the block start was
    reset past the heading while the buffered text predates it. -/
theorem line_span_invariant_fails_on_preheading_content :
    buildChapters ["pre text", "1 Ch"] none =
      [⟨"Ch", 1, .cons (.mk "pre text" 2 "pre text" "paragraph" 2 1 .nil) .nil, 1, 1⟩] ∧
      ¬((2 : Int) ≤ 1) := by
  refine ⟨by decide, by decide⟩

/-- The formatting-hint map as the spec describes it (section 6): a map from
    element identity to a record with an is_heading flag; this marks a given
    element as a heading when its entry exists and carries a truthy
    is_heading.  Second definition for the refinement comparison of C4;
    detect_heading is the code side. -/
def specFormattingMarksHeading (d : PyDict) (elem : PyKey) : Bool :=
  match dictLookup elem d with
  | some (.dict h) =>
    (match dictLookup (.str "is_heading") h with
     | some v => pyTruthy v
     | none => false)
  | _ => false

/-- C4 counterexample: a formatting map in the spec's per-element format
    marks element 0 as a level-1 heading, yet the detector returns nothing
    for that line — it looks for an is_heading key on the whole map and
    never performs a per-element lookup, so the formatted signal does not
    fire when the map marks that particular element. -/
theorem formatted_signal_ignores_per_element_marking :
    specFormattingMarksHeading
        [(.int 0, .dict [(.str "is_heading", .bool true), (.str "heading_level", .int 1)])]
        (.int 0) = true ∧
      detect_heading "Some Chapter Title"
        (some [(.int 0,
                .dict [(.str "is_heading", .bool true), (.str "heading_level", .int 1)])]) =
        none := by
  refine ⟨by decide, by decide⟩

/-- C5 counterexample: Scenario B's bullet block keeps its raw lines — the
    content string is the newline-join of the original lines including the
    bullet markers, not the stripped item texts the claim describes. -/
theorem scenarioB_content_keeps_bullet_markers :
    buildChapters
        ["[HEADING 1] Chapter A", "[HEADING 2] Section A.1", "- item1", "- item2"] none =
      [⟨"Chapter A", 1,
        .cons (.mk "Section A.1" 2 "" "heading" 1 1
          (.cons (.mk "- item1" 3 "- item1\n- item2" "bullet_block" 2 3 .nil) .nil)) .nil,
        0, 3⟩] ∧
      "- item1\n- item2" ≠ "item1\nitem2" := by
  refine ⟨by decide, by decide⟩

/-- C5 amended: Scenario B yields one Chapter titled Chapter A containing
    one heading Topic Section A.1, which contains one bullet_block content
    Topic whose content is the join of the raw lines,
    - item1 then a newline then - item2. -/
theorem scenarioB_structure :
    buildChapters
        ["[HEADING 1] Chapter A", "[HEADING 2] Section A.1", "- item1", "- item2"] none =
      [⟨"Chapter A", 1,
        .cons (.mk "Section A.1" 2 "" "heading" 1 1
          (.cons (.mk "- item1" 3 "- item1\n- item2" "bullet_block" 2 3 .nil) .nil)) .nil,
        0, 3⟩] := by
  decide

/-- C6 counterexample: a flushed paragraph block whose first line has 100
    characters gets the empty title, not the 50-character truncation with an
    ellipsis the claim requires — the truncation branch only runs for first
    lines shorter than 100 characters. -/
theorem long_first_line_gets_empty_title :
    buildChapters ["1 Ch", ⟨List.replicate 100 'a'⟩] none =
      [⟨"Ch", 1,
        .cons (.mk "" 2 ⟨List.replicate 100 'a'⟩ "paragraph" 1 1 .nil) .nil, 0, 1⟩] ∧
      ("" : String) ≠ ⟨List.replicate 50 'a' ++ "...".data⟩ := by
  refine ⟨by decide, by decide⟩

/-- C8: for a non-empty block the classifier returns definition iff the
    first (stripped) line matches one of the four definition patterns;
    otherwise bullet_block iff strictly more than half the lines match the
    bullet pattern; otherwise list iff strictly more than half match the
    numbered-list pattern; otherwise paragraph — in that order.  The counts
    are independent per-pattern counts: the elif in the counting loop never
    hides a numbered-list line since the two patterns are disjoint. -/
theorem identify_content_type_precedence (ls : List String) (h : ls ≠ []) :
    identify_content_type ls =
      (if ((defP1 (stripChars (ls.head h).data)).isSome ||
           (defP2 (stripChars (ls.head h).data)).isSome ||
           (defP3 (stripChars (ls.head h).data)).isSome ||
           (defP4 (stripChars (ls.head h).data)).isSome) = true then "definition"
       else if 2 * ls.countP (fun l => bulletMatch l.data) > ls.length then "bullet_block"
       else if 2 * ls.countP (fun l => numListMatch l.data) > ls.length then "list"
       else "paragraph") := by
  cases ls with
  | nil => exact absurd rfl h
  | cons f rest =>
    have hdef : (identify_definition (pyStrip f)).isSome =
        ((defP1 (stripChars f.data)).isSome || (defP2 (stripChars f.data)).isSome ||
         (defP3 (stripChars f.data)).isSome || (defP4 (stripChars f.data)).isSome) := by
      rw [identify_definition_isSome]
      have hred : (pyStrip f).data = stripChars f.data := rfl
      rw [hred, stripChars_idem]
    show identify_content_type (f :: rest) = _
    unfold identify_content_type
    rw [countBlock_eq]
    simp only [List.head_cons, hdef]

/-- C8 witness: the theorem applied to a concrete two-line bullet block. -/
theorem identify_content_type_precedence_witness :
    (["- a", "- b"] : List String) ≠ [] ∧
    identify_content_type ["- a", "- b"] =
      (if ((defP1 (stripChars ("- a" : String).data)).isSome ||
           (defP2 (stripChars ("- a" : String).data)).isSome ||
           (defP3 (stripChars ("- a" : String).data)).isSome ||
           (defP4 (stripChars ("- a" : String).data)).isSome) = true then "definition"
       else if 2 * (["- a", "- b"] : List String).countP (fun l => bulletMatch l.data) >
           (["- a", "- b"] : List String).length then "bullet_block"
       else if 2 * (["- a", "- b"] : List String).countP (fun l => numListMatch l.data) >
           (["- a", "- b"] : List String).length then "list"
       else "paragraph") :=
  ⟨by decide, identify_content_type_precedence ["- a", "- b"] (by decide)⟩

/-- C9: every output Chapter's line_end is the value reached by following
    the last element of its sections/subsections chain to a node with no
    children (that node's own line_end), and a Chapter without sections uses
    its own line_start. -/
theorem chapter_line_end_follows_last_chain (lines : List String) (fmt : Option PyDict)
    (c : Chapter) (hc : c ∈ buildChapters lines fmt) :
    c.line_end = (match c.sections.lastOption with
                  | none => c.line_start
                  | some t => get_last_line t) := by
  unfold buildChapters at hc
  rw [List.mem_map] at hc
  obtain ⟨c0, _, rfl⟩ := hc
  show chapterEnd c0 = _
  unfold chapterEnd
  rfl

/-- C9 witness: the theorem applied to the one-chapter document built from
    the single heading line 1 Ch. -/
theorem chapter_line_end_witness :
    (⟨"Ch", 1, .nil, 0, 0⟩ : Chapter) ∈ buildChapters ["1 Ch"] none ∧
    (⟨"Ch", 1, .nil, 0, 0⟩ : Chapter).line_end =
      (match (⟨"Ch", 1, .nil, 0, 0⟩ : Chapter).sections.lastOption with
       | none => (⟨"Ch", 1, .nil, 0, 0⟩ : Chapter).line_start
       | some t => get_last_line t) :=
  ⟨by decide, chapter_line_end_follows_last_chain ["1 Ch"] none _ (by decide)⟩

/-- C4 amended: the detector consults the formatting map itself, never a
    per-element entry, so with a map present the formatted signal treats
    every non-blank line alike: it fires exactly when the map is nonempty
    and its is_heading entry is truthy, and then yields type formatted,
    level = the map's heading_level entry when present (2 when absent) and
    title = the trimmed line; when it does not fire the line is classified
    exactly as it would be with no map at all (fallthrough to the
    marker/numbered/keyword checks). -/
theorem formatted_signal_uniform (line : String) (d : PyDict) (hl : Option Int)
    (hnb : pyStrip line ≠ "")
    (hhl : dictLookup (.str "heading_level") d = hl.map PyVal.int) :
    (formattedFires (some d) = true →
      detect_heading line (some d) =
        some ⟨"formatted", hl.getD 2, pyStrip line, pyStrip line, none⟩) ∧
    (formattedFires (some d) = false →
      detect_heading line (some d) = detect_heading line none) := by
  constructor
  · intro hf
    unfold detect_heading
    rw [if_neg hnb, if_pos hf]
    have : hintLevel (dictLookup (.str "heading_level") (((some d).getD []) : PyDict)) =
        hl.getD 2 := by
      show hintLevel (dictLookup (.str "heading_level") d) = hl.getD 2
      rw [hhl]
      cases hl <;> rfl
    rw [this]
  · intro hf
    unfold detect_heading
    rw [if_neg hnb, if_neg (by rw [hf]; exact Bool.false_ne_true), if_neg hnb,
      if_neg (show ¬formattedFires none = true from by decide)]

/-- C4 amended witness: a nonempty map whose is_heading entry is true and
    which has no heading_level entry makes an ordinary prose line a
    formatted heading of the default level 2. -/
theorem formatted_signal_uniform_witness :
    pyStrip "hello world" ≠ "" ∧
    dictLookup (.str "heading_level") [(.str "is_heading", .bool true)] =
      (none : Option Int).map PyVal.int ∧
    (formattedFires (some [(.str "is_heading", .bool true)]) = true →
      detect_heading "hello world" (some [(.str "is_heading", .bool true)]) =
        some ⟨"formatted", (none : Option Int).getD 2, "hello world", "hello world", none⟩) :=
  ⟨by decide, rfl,
    (formatted_signal_uniform "hello world" [(.str "is_heading", .bool true)] none
      (by decide) rfl).1⟩

/-- C6 amended: a flushed content block's title is the extracted term when
    the block classifies as definition (and a term then always exists);
    otherwise, when the first line is shorter than 100 characters, it is the
    first line truncated to 50 characters with an ellipsis appended exactly
    when the first line is longer than 50 characters; a first line of 100 or
    more characters leaves the title empty. -/
theorem content_block_title_formula (f : String) (rest : List String) :
    (identify_content_type (f :: rest) = "definition" →
        (identify_definition f).isSome = true ∧
        contentTitle "definition" (f :: rest) =
          ((identify_definition f).map Prod.fst).getD "") ∧
    (identify_content_type (f :: rest) ≠ "definition" →
        contentTitle (identify_content_type (f :: rest)) (f :: rest) =
          (if f.length < 100 then
            (if f.length ≤ 50 then f else ⟨f.data.take 50⟩ ++ "...")
           else "")) := by
  have hdata : (pyStrip f).data = stripChars f.data := rfl
  have hsame : identify_definition (pyStrip f) = identify_definition f := by
    unfold identify_definition
    rw [hdata, stripChars_idem]
  have hict : identify_content_type (f :: rest) =
      (if (identify_definition (pyStrip f)).isSome = true then "definition"
       else if 2 * (countBlock (f :: rest)).1 > (f :: rest).length then "bullet_block"
       else if 2 * (countBlock (f :: rest)).2 > (f :: rest).length then "list"
       else "paragraph") := rfl
  have hctitle : ∀ ct : String, contentTitle ct (f :: rest) =
      (if ct = "definition" then
        (match identify_definition f with
         | some (term, _) => term
         | none => "")
       else if f.length < 100 then
        ⟨f.data.take 50⟩ ++ (if f.length > 50 then "..." else "")
       else "") := fun ct => rfl
  constructor
  · intro hct
    have hs : (identify_definition f).isSome = true := by
      rw [← hsame]
      cases hb : (identify_definition (pyStrip f)).isSome with
      | true => rfl
      | false =>
        exfalso
        rw [hict, if_neg (by rw [hb]; exact Bool.false_ne_true)] at hct
        split_ifs at hct <;> exact absurd hct (by decide)
    refine ⟨hs, ?_⟩
    rw [hctitle, if_pos rfl]
    cases hd : identify_definition f with
    | none => rw [hd] at hs; simp at hs
    | some p => cases p; simp [hd]
  · intro hct
    rw [hctitle, if_neg hct]
    by_cases h100 : f.length < 100
    · rw [if_pos h100, if_pos h100]
      by_cases h50 : f.length ≤ 50
      · rw [if_pos h50, if_neg (by omega)]
        have htake : f.data.take 50 = f.data := List.take_of_length_le h50
        rw [htake]
        show f ++ "" = f
        cases f with
        | mk l => show String.mk (l ++ []) = ⟨l⟩; rw [List.append_nil]
      · rw [if_neg h50, if_pos (by omega)]
    · rw [if_neg h100, if_neg h100]

/-- C6 amended witness: a definition block titled by its extracted term. -/
theorem content_block_title_formula_witness :
    identify_content_type ["Term: stuff here"] = "definition" ∧
    (identify_definition ("Term: stuff here")).isSome = true ∧
    contentTitle "definition" ["Term: stuff here"] =
      ((identify_definition ("Term: stuff here")).map Prod.fst).getD "" :=
  ⟨by decide,
    ((content_block_title_formula "Term: stuff here" []).1 (by decide)).1,
    ((content_block_title_formula "Term: stuff here" []).1 (by decide)).2⟩

/-! ## C7: the stack invariant -/

/-- Popping one entry drops exactly the top level from the stack's level
    list (the folded child changes a node, never its recorded level). -/
theorem popOnce_levels (st : BuildSt) :
    (popOnce st).stack.map Prod.fst = (st.stack.map Prod.fst).tail := by
  obtain ⟨fin, stk, blk, bs, bl⟩ := st
  cases stk with
  | nil => rfl
  | cons p rest =>
    obtain ⟨l, n⟩ := p
    cases n with
    | chap c => rfl
    | top t =>
      cases rest with
      | nil => rfl
      | cons q rs => obtain ⟨pl, pn⟩ := q; rfl

/-- Attaching a content block changes a stack node, not the level list. -/
theorem add_content_levels (st : BuildSt) (blk : List String) (bs : Nat) (be : Int) :
    (add_content_to_hierarchy st blk bs be).stack.map Prod.fst = st.stack.map Prod.fst := by
  unfold add_content_to_hierarchy
  split
  · rfl
  · rfl
  · rename_i heq
    rw [heq]
    rfl

theorem popOnce_length (st : BuildSt) :
    (popOnce st).stack.length = st.stack.length - 1 := by
  have h := congrArg List.length (popOnce_levels st)
  simpa using h

theorem popWhileN_levels_pairwise (lvl : Int) :
    ∀ (n : Nat) (st : BuildSt),
      ((st.stack.map Prod.fst).Pairwise (· > ·)) →
      (((popWhileN n lvl st).stack.map Prod.fst).Pairwise (· > ·)) := by
  intro n
  induction n with
  | zero => intro st h; exact h
  | succ n ih =>
    intro st h
    unfold popWhileN
    split
    · split
      · apply ih
        rw [popOnce_levels]
        exact h.sublist ((st.stack.map Prod.fst).tail_sublist)
      · exact h
    · exact h

/-- After the while-pop either the stack is empty or its top level is
    strictly below the new heading's level. -/
theorem popWhileN_head_lt (lvl : Int) :
    ∀ (n : Nat) (st : BuildSt), st.stack.length ≤ n →
      ∀ p, (popWhileN n lvl st).stack.head? = some p → p.1 < lvl := by
  intro n
  induction n with
  | zero =>
    intro st hlen p hp
    have h0 : st.stack = [] := List.length_eq_zero.mp (Nat.le_zero.mp hlen)
    unfold popWhileN at hp
    rw [h0] at hp
    simp at hp
  | succ n ih =>
    intro st hlen p hp
    unfold popWhileN at hp
    split at hp
    · next l x tail heq =>
      split at hp
      · next hge =>
        refine ih (popOnce st) ?_ p hp
        rw [popOnce_length, heq]
        rw [heq] at hlen
        simp only [List.length_cons] at hlen ⊢
        omega
      · next hge =>
        rw [heq] at hp
        simp at hp
        rw [← hp]
        simp at hge
        omega
    · next heq =>
      rw [heq] at hp
      simp at hp

/-- In a strictly decreasing level list every element is below anything
    above the head. -/
theorem pairwise_head_bound (lvl : Int) :
    ∀ (ls : List Int), ls.Pairwise (· > ·) →
      (∀ p, ls.head? = some p → p < lvl) → ∀ x ∈ ls, x < lvl := by
  intro ls h hhead x hx
  cases ls with
  | nil => simp at hx
  | cons a t =>
    have ha : a < lvl := hhead a rfl
    rcases List.mem_cons.mp hx with rfl | ht
    · exact ha
    · have := (List.pairwise_cons.mp h).1 x ht
      omega

theorem blankStep_levels (i : Nat) (st : BuildSt) :
    (blankStep i st).stack.map Prod.fst = st.stack.map Prod.fst := by
  unfold blankStep
  split
  · show (add_content_to_hierarchy st _ _ _).stack.map Prod.fst = _
    rw [add_content_levels]
  · rfl

theorem flushAtHeading_levels (i : Nat) (st : BuildSt) :
    (flushAtHeading i st).stack.map Prod.fst = st.stack.map Prod.fst := by
  unfold flushAtHeading
  split
  · show (add_content_to_hierarchy st _ _ _).stack.map Prod.fst = _
    rw [add_content_levels]
  · rfl

/-- The level-1 reset and the pop-then-push rule both preserve the strictly
    decreasing level stack: after a reset the stack is a singleton; after
    the pops the top (if any) is strictly below the pushed level. -/
theorem applyHeading_pairwise (i : Nat) (hi : HeadingInfo) (st : BuildSt)
    (h : (st.stack.map Prod.fst).Pairwise (· > ·)) :
    (((applyHeading i hi st).stack.map Prod.fst).Pairwise (· > ·)) := by
  unfold applyHeading
  by_cases h1 : hi.level = 1
  · rw [if_pos h1]
    simp
  · rw [if_neg h1]
    show ((hi.level :: (popWhileGE hi.level st).stack.map Prod.fst).Pairwise (· > ·))
    rw [List.pairwise_cons]
    have hpw : ((popWhileGE hi.level st).stack.map Prod.fst).Pairwise (· > ·) :=
      popWhileN_levels_pairwise hi.level st.stack.length st h
    refine ⟨?_, hpw⟩
    intro lv hlv
    refine pairwise_head_bound hi.level _ hpw ?_ lv hlv
    intro p hp
    cases hh : (popWhileGE hi.level st).stack.head? with
    | none => rw [List.head?_map, hh] at hp; simp at hp
    | some q =>
      rw [List.head?_map, hh] at hp
      simp at hp
      have := popWhileN_head_lt hi.level st.stack.length st (le_refl _) q hh
      omega

/-- One build step preserves the strictly-decreasing level stack. -/
theorem buildStep_pairwise (fmt : Option PyDict) (i : Nat) (line : String) (st : BuildSt)
    (h : (st.stack.map Prod.fst).Pairwise (· > ·)) :
    (((buildStep fmt i line st).stack.map Prod.fst).Pairwise (· > ·)) := by
  unfold buildStep
  split
  · rw [blankStep_levels]
    exact h
  · cases hd : detect_heading line fmt with
    | none => exact h
    | some hi =>
      show (((applyHeading i hi (flushAtHeading i { st with blanks := 0 })).stack.map
        Prod.fst).Pairwise (· > ·))
      apply applyHeading_pairwise
      rw [flushAtHeading_levels]
      exact h

/-- C7: at every point of the pass (after any number of processed lines)
    the hierarchy stack's levels strictly increase from bottom to top; the
    stack is kept top-first here, so its level list strictly decreases.
    The level-1 reset, the pop-while rule and every push preserve it. -/
theorem stack_levels_strictly_increase (lines : List String) (fmt : Option PyDict) (n : Nat) :
    (((buildLoop fmt (lines.take n) 0 initSt).stack.map Prod.fst).Pairwise (· > ·)) := by
  suffices hgen : ∀ (ls : List String) (i : Nat) (st : BuildSt),
      ((st.stack.map Prod.fst).Pairwise (· > ·)) →
      (((buildLoop fmt ls i st).stack.map Prod.fst).Pairwise (· > ·)) by
    exact hgen (lines.take n) 0 initSt (by simp [initSt])
  intro ls
  induction ls with
  | nil => intro i st h; exact h
  | cons l t ih =>
    intro i st h
    exact ih (i + 1) (buildStep fmt i l st) (buildStep_pairwise fmt i l st h)

/-! ## C2: chapters come exactly from level-1 headings -/

def SNode.isTop : SNode → Bool
  | .top _ => true
  | .chap _ => false

/-- Reachable stacks keep a Chapter only at the bottom: chapters enter the
    stack solely through the level-1 reset. -/
def stackOKb : List (Int × SNode) → Bool
  | [] => true
  | [_] => true
  | p :: b :: rest => p.2.isTop && stackOKb (b :: rest)

/-- The identifying data of a chapter that the heading pass fixes at
    creation: its title and starting line. -/
def chapterKey (c : Chapter) : String × Int := (c.title, c.line_start)

/-- The chapter currently under construction at the bottom of the stack,
    if any. -/
def rootChapters (st : BuildSt) : List Chapter :=
  match st.stack.getLast? with
  | some (_, .chap c) => [c]
  | _ => []

/-- All chapters the builder has created so far, completed ones first. -/
def projChapters (st : BuildSt) : List (String × Int) :=
  st.finished.map chapterKey ++ (rootChapters st).map chapterKey

/-- The level-1 headings of the line list starting at index i, with their
    detector titles and line numbers. -/
def level1HeadingsFrom (fmt : Option PyDict) : List String → Nat → List (String × Int)
  | [], _ => []
  | l :: ls, i =>
    match detect_heading l fmt with
    | some h =>
      if h.level = 1 then (h.title, (i : Int)) :: level1HeadingsFrom fmt ls (i + 1)
      else level1HeadingsFrom fmt ls (i + 1)
    | none => level1HeadingsFrom fmt ls (i + 1)

theorem attachChild_isTop (n : SNode) (t : Topic) : (attachChild n t).isTop = n.isTop := by
  cases n with
  | chap c => rfl
  | top tt => cases tt; rfl

theorem detect_heading_blank (line : String) (fmt : Option PyDict)
    (hb : pyStrip line = "") : detect_heading line fmt = none := by
  unfold detect_heading
  rw [if_pos hb]

theorem stackOKb_cons_attach (lvl : Int) (n : SNode) (t : Topic) (rest : List (Int × SNode)) :
    stackOKb ((lvl, attachChild n t) :: rest) = stackOKb ((lvl, n) :: rest) := by
  cases rest with
  | nil => rfl
  | cons b rs =>
    show ((attachChild n t).isTop && _) = (n.isTop && _)
    rw [attachChild_isTop]

theorem rootChapters_cons_attach (lvl : Int) (n : SNode) (t : Topic)
    (rest : List (Int × SNode)) (st st' : BuildSt)
    (hs : st.stack = (lvl, n) :: rest) (hs' : st'.stack = (lvl, attachChild n t) :: rest) :
    (rootChapters st').map chapterKey = (rootChapters st).map chapterKey := by
  unfold rootChapters
  rw [hs, hs']
  cases rest with
  | nil =>
    cases n with
    | chap c => rfl
    | top tt => cases tt; rfl
  | cons b rs => rw [List.getLast?_cons_cons, List.getLast?_cons_cons]

theorem add_content_proj (st : BuildSt) (blk : List String) (bs : Nat) (be : Int) :
    projChapters (add_content_to_hierarchy st blk bs be) = projChapters st ∧
    stackOKb (add_content_to_hierarchy st blk bs be).stack = stackOKb st.stack := by
  unfold add_content_to_hierarchy
  split
  · exact ⟨rfl, rfl⟩
  · exact ⟨rfl, rfl⟩
  · rename_i heq
    constructor
    · unfold projChapters
      refine congrArg _ ?_
      exact rootChapters_cons_attach _ _ _ _ _ _ heq rfl
    · rw [heq, stackOKb_cons_attach]

theorem popOnce_proj (st : BuildSt) (hok : stackOKb st.stack = true) :
    projChapters (popOnce st) = projChapters st ∧
    stackOKb (popOnce st).stack = true := by
  obtain ⟨fin, stk, blk, bs, bl⟩ := st
  cases stk with
  | nil => exact ⟨rfl, rfl⟩
  | cons p rest =>
    obtain ⟨l, n⟩ := p
    cases n with
    | chap c =>
      cases rest with
      | nil =>
        refine ⟨?_, rfl⟩
        show (fin ++ [c]).map chapterKey ++ [] = fin.map chapterKey ++ [chapterKey c]
        simp
      | cons b rs =>
        exfalso
        have : SNode.isTop (.chap c) = true := by
          have := hok
          simp only [stackOKb, Bool.and_eq_true] at this
          exact this.1
        simp [SNode.isTop] at this
    | top t =>
      cases rest with
      | nil => exact ⟨rfl, rfl⟩
      | cons b rs =>
        obtain ⟨pl, pn⟩ := b
        constructor
        · show projChapters ⟨fin, (pl, attachChild pn t) :: rs, blk, bs, bl⟩ = _
          unfold projChapters
          refine congrArg _ ?_
          exact rootChapters_cons_attach pl pn t rs
            ⟨fin, (pl, pn) :: rs, blk, bs, bl⟩ _ rfl rfl
        · show stackOKb ((pl, attachChild pn t) :: rs) = true
          rw [stackOKb_cons_attach]
          have := hok
          simp only [stackOKb, Bool.and_eq_true] at this
          cases rs with
          | nil => rfl
          | cons q qs => exact this.2

theorem collapseN_proj (n : Nat) :
    ∀ (st : BuildSt), stackOKb st.stack = true →
      projChapters (collapseN n st) = projChapters st ∧
      stackOKb (collapseN n st).stack = true := by
  induction n with
  | zero => intro st hok; exact ⟨rfl, hok⟩
  | succ n ih =>
    intro st hok
    obtain ⟨h1, h2⟩ := popOnce_proj st hok
    obtain ⟨h3, h4⟩ := ih (popOnce st) h2
    exact ⟨h3.trans h1, h4⟩

theorem collapseN_empties (n : Nat) :
    ∀ (st : BuildSt), st.stack.length ≤ n → (collapseN n st).stack = [] := by
  induction n with
  | zero =>
    intro st h
    exact List.length_eq_zero.mp (Nat.le_zero.mp h)
  | succ n ih =>
    intro st h
    refine ih (popOnce st) ?_
    rw [popOnce_length]
    omega

theorem collapseAll_proj (st : BuildSt) (hok : stackOKb st.stack = true) :
    projChapters (collapseAll st) = projChapters st ∧
    (collapseAll st).stack = [] := by
  obtain ⟨h1, _⟩ := collapseN_proj st.stack.length st hok
  exact ⟨h1, collapseN_empties st.stack.length st (le_refl _)⟩

theorem popWhileN_proj (lvl : Int) (n : Nat) :
    ∀ (st : BuildSt), stackOKb st.stack = true →
      projChapters (popWhileN n lvl st) = projChapters st ∧
      stackOKb (popWhileN n lvl st).stack = true := by
  induction n with
  | zero => intro st hok; exact ⟨rfl, hok⟩
  | succ n ih =>
    intro st hok
    unfold popWhileN
    split
    · split
      · obtain ⟨h1, h2⟩ := popOnce_proj st hok
        obtain ⟨h3, h4⟩ := ih (popOnce st) h2
        exact ⟨h3.trans h1, h4⟩
      · exact ⟨rfl, hok⟩
    · exact ⟨rfl, hok⟩

theorem flushAtHeading_proj (i : Nat) (st : BuildSt) :
    projChapters (flushAtHeading i st) = projChapters st ∧
    stackOKb (flushAtHeading i st).stack = stackOKb st.stack := by
  unfold flushAtHeading
  split
  · obtain ⟨h1, h2⟩ := add_content_proj st st.block st.blockStart ((i : Int) - 1)
    exact ⟨h1, h2⟩
  · exact ⟨rfl, rfl⟩

theorem blankStep_proj (i : Nat) (st : BuildSt) :
    projChapters (blankStep i st) = projChapters st ∧
    stackOKb (blankStep i st).stack = stackOKb st.stack := by
  unfold blankStep
  split
  · obtain ⟨h1, h2⟩ := add_content_proj st st.block st.blockStart ((i : Int) - (st.blanks + 1))
    exact ⟨h1, h2⟩
  · exact ⟨rfl, rfl⟩

theorem applyHeading_proj (i : Nat) (hi : HeadingInfo) (st : BuildSt)
    (hok : stackOKb st.stack = true) :
    projChapters (applyHeading i hi st) =
      projChapters st ++ (if hi.level = 1 then [(hi.title, (i : Int))] else []) ∧
    stackOKb (applyHeading i hi st).stack = true := by
  unfold applyHeading
  by_cases h1 : hi.level = 1
  · rw [if_pos h1, if_pos h1]
    obtain ⟨hc1, hc2⟩ := collapseAll_proj st hok
    constructor
    · show (collapseAll st).finished.map chapterKey ++ _ = _
      have hroot : (rootChapters { collapseAll st with
          stack := [((1 : Int), SNode.chap ⟨hi.title, 1, .nil, (i : Int), 0⟩)] }).map
          chapterKey = [(hi.title, (i : Int))] := rfl
      rw [hroot]
      have hfin : (collapseAll st).finished.map chapterKey = projChapters (collapseAll st) := by
        unfold projChapters rootChapters
        rw [hc2]
        simp
      rw [hfin, hc1]
    · rfl
  · rw [if_neg h1, if_neg h1]
    obtain ⟨hp1, hp2⟩ := popWhileN_proj hi.level st.stack.length st hok
    have hp1' : projChapters (popWhileGE hi.level st) = projChapters st := hp1
    have hp2' : stackOKb (popWhileGE hi.level st).stack = true := hp2
    constructor
    · rw [List.append_nil, ← hp1']
      unfold projChapters
      refine congrArg _ ?_
      refine congrArg _ ?_
      unfold rootChapters
      show (match List.getLast?
          ((hi.level, SNode.top (.mk hi.title hi.level "" "heading" (i : Int) (i : Int) .nil))
            :: (popWhileGE hi.level st).stack) with
        | some (_, SNode.chap c) => [c]
        | _ => []) = _
      cases hs : (popWhileGE hi.level st).stack with
      | nil => rfl
      | cons b rs => rw [List.getLast?_cons_cons]
    · show stackOKb ((hi.level,
        SNode.top (.mk hi.title hi.level "" "heading" (i : Int) (i : Int) .nil))
          :: (popWhileGE hi.level st).stack) = true
      cases hs : (popWhileGE hi.level st).stack with
      | nil => rfl
      | cons b rs =>
        show (SNode.isTop
          (SNode.top (.mk hi.title hi.level "" "heading" (i : Int) (i : Int) .nil)) &&
            stackOKb (b :: rs)) = true
        rw [← hs, hp2']
        rfl

theorem buildStep_proj (fmt : Option PyDict) (i : Nat) (line : String) (st : BuildSt)
    (hok : stackOKb st.stack = true) :
    projChapters (buildStep fmt i line st) =
      projChapters st ++
        (match detect_heading line fmt with
         | some h => if h.level = 1 then [(h.title, (i : Int))] else []
         | none => []) ∧
    stackOKb (buildStep fmt i line st).stack = true := by
  unfold buildStep
  by_cases hb : pyStrip line = ""
  · rw [if_pos hb, detect_heading_blank line fmt hb]
    obtain ⟨h1, h2⟩ := blankStep_proj i st
    rw [List.append_nil]
    exact ⟨h1, h2.trans hok⟩
  · rw [if_neg hb]
    cases hd : detect_heading line fmt with
    | none =>
      rw [List.append_nil]
      exact ⟨rfl, hok⟩
    | some hi =>
      have hfl := flushAtHeading_proj i { st with blanks := 0 }
      have hokf : stackOKb (flushAtHeading i { st with blanks := 0 }).stack = true :=
        hfl.2.trans hok
      have hap := applyHeading_proj i hi (flushAtHeading i { st with blanks := 0 }) hokf
      constructor
      · show projChapters (applyHeading i hi (flushAtHeading i { st with blanks := 0 })) = _
        rw [hap.1, hfl.1]
        rfl
      · exact hap.2

theorem level1HeadingsFrom_cons (fmt : Option PyDict) (l : String) (ls : List String)
    (i : Nat) :
    level1HeadingsFrom fmt (l :: ls) i =
      (match detect_heading l fmt with
       | some h => if h.level = 1 then [(h.title, (i : Int))] else []
       | none => []) ++ level1HeadingsFrom fmt ls (i + 1) := by
  show (match detect_heading l fmt with
        | some h =>
          if h.level = 1 then (h.title, (i : Int)) :: level1HeadingsFrom fmt ls (i + 1)
          else level1HeadingsFrom fmt ls (i + 1)
        | none => level1HeadingsFrom fmt ls (i + 1)) = _
  cases detect_heading l fmt with
  | none => rfl
  | some h =>
    by_cases h1 : h.level = 1
    · simp [h1]
    · simp [h1]

theorem buildLoop_proj (fmt : Option PyDict) :
    ∀ (ls : List String) (i : Nat) (st : BuildSt), stackOKb st.stack = true →
      projChapters (buildLoop fmt ls i st) =
        projChapters st ++ level1HeadingsFrom fmt ls i ∧
      stackOKb (buildLoop fmt ls i st).stack = true := by
  intro ls
  induction ls with
  | nil =>
    intro i st hok
    refine ⟨?_, hok⟩
    show projChapters st = projChapters st ++ ([] : List (String × Int))
    rw [List.append_nil]
  | cons l t ih =>
    intro i st hok
    obtain ⟨h1, h2⟩ := buildStep_proj fmt i l st hok
    obtain ⟨h3, h4⟩ := ih (i + 1) (buildStep fmt i l st) h2
    refine ⟨?_, h4⟩
    show projChapters (buildLoop fmt t (i + 1) (buildStep fmt i l st)) = _
    rw [h3, h1, List.append_assoc, level1HeadingsFrom_cons]

/-- C2 amended: the output chapters are, in order, exactly the level-1
    headings of the input (their detector titles paired with their line
    numbers) — no implicit root chapter is ever synthesized and level>1
    headings never create chapters.  (Content pending at the first level-1
    heading is not dropped, see the counterexample.) -/
theorem chapters_are_exactly_level1_headings (lines : List String) (fmt : Option PyDict) :
    (buildChapters lines fmt).map chapterKey = level1HeadingsFrom fmt lines 0 := by
  unfold buildChapters
  obtain ⟨hproj, hok⟩ := buildLoop_proj fmt lines 0 initSt rfl
  have hinit : projChapters initSt = [] := rfl
  rw [hinit] at hproj
  simp only [List.nil_append] at hproj
  set st := buildLoop fmt lines 0 initSt with hst
  have hfl : projChapters
      (if (!st.block.isEmpty && !st.stack.isEmpty) = true then
        add_content_to_hierarchy st st.block st.blockStart ((lines.length : Int) - 1)
      else st) = projChapters st ∧
      stackOKb (if (!st.block.isEmpty && !st.stack.isEmpty) = true then
        add_content_to_hierarchy st st.block st.blockStart ((lines.length : Int) - 1)
      else st).stack = true := by
    split
    · obtain ⟨h1, h2⟩ := add_content_proj st st.block st.blockStart ((lines.length : Int) - 1)
      exact ⟨h1, h2.trans hok⟩
    · exact ⟨rfl, hok⟩
  set st2 := (if (!st.block.isEmpty && !st.stack.isEmpty) = true then
      add_content_to_hierarchy st st.block st.blockStart ((lines.length : Int) - 1)
    else st) with hst2
  obtain ⟨hc1, hc2⟩ := collapseAll_proj st2 hfl.2
  have hfin : (collapseAll st2).finished.map chapterKey = level1HeadingsFrom fmt lines 0 := by
    have : projChapters (collapseAll st2) = level1HeadingsFrom fmt lines 0 := by
      rw [hc1, hfl.1, hproj]
    rw [← this]
    unfold projChapters rootChapters
    rw [hc2]
    simp
  rw [← hfin]
  rw [List.map_map]
  rfl

/-! ## C3: line_start ≤ line_end -/

mutual
/-- Every node of the subtree has line_start ≤ line_end and line_end ≥ b
    (b is the enclosing chapter's line_start, so the chapter's deferred
    line_end can never undercut its line_start). -/
def topicGood (b : Int) : Topic → Bool
  | .mk _ _ _ _ s e subs => decide (b ≤ e) && decide (s ≤ e) && listGood b subs

def listGood (b : Int) : TopicList → Bool
  | .nil => true
  | .cons t ts => topicGood b t && listGood b ts
end

mutual
/-- Every node of the subtree has line_start ≤ line_end. -/
def topicOk : Topic → Bool
  | .mk _ _ _ _ s e subs => decide (s ≤ e) && listOk subs

def listOk : TopicList → Bool
  | .nil => true
  | .cons t ts => topicOk t && listOk ts
end

/-- Every node of the chapter (the chapter itself and its whole topic tree)
    has line_start ≤ line_end. -/
def chapterOkB (c : Chapter) : Bool :=
  decide (c.line_start ≤ c.line_end) && listOk c.sections

/-- No content line appears before the first detected heading: scanning the
    lines, a non-blank line that the detector rejects is only allowed once
    some earlier line was a heading (seen tracks that). -/
def noPreContentAux (fmt : Option PyDict) : List String → Bool → Bool
  | [], _ => true
  | l :: ls, seen =>
    match detect_heading l fmt with
    | some _ => noPreContentAux fmt ls true
    | none =>
      if pyStrip l = "" then noPreContentAux fmt ls seen
      else seen && noPreContentAux fmt ls seen

def noPreContentB (fmt : Option PyDict) (lines : List String) : Bool :=
  noPreContentAux fmt lines false

mutual
theorem listGood_implies_listOk : ∀ (b : Int) (ts : TopicList),
    listGood b ts = true → listOk ts = true
  | _, .nil, _ => rfl
  | b, .cons t ts, h => by
    simp only [listGood, Bool.and_eq_true] at h
    simp only [listOk, Bool.and_eq_true]
    exact ⟨topicGood_implies_topicOk b t h.1, listGood_implies_listOk b ts h.2⟩

theorem topicGood_implies_topicOk : ∀ (b : Int) (t : Topic),
    topicGood b t = true → topicOk t = true
  | b, .mk ti lv co ct s e subs, h => by
    simp only [topicGood, Bool.and_eq_true, decide_eq_true_eq] at h
    simp only [topicOk, Bool.and_eq_true, decide_eq_true_eq]
    exact ⟨h.1.2, listGood_implies_listOk b subs h.2⟩
end

mutual
theorem topicGood_last_line : ∀ (b : Int) (t : Topic),
    topicGood b t = true → b ≤ get_last_line t
  | b, .mk ti lv co ct s e subs, h => by
    simp only [topicGood, Bool.and_eq_true, decide_eq_true_eq] at h
    exact listGood_last_line b e subs h.1.1 h.2

theorem listGood_last_line : ∀ (b e : Int) (ts : TopicList),
    b ≤ e → listGood b ts = true → b ≤ lastLineAux e ts
  | b, e, .nil, he, _ => he
  | b, e, .cons t .nil, he, h => by
    simp only [listGood, Bool.and_eq_true] at h
    exact topicGood_last_line b t h.1
  | b, e, .cons t (.cons u us), he, h => by
    simp only [listGood, Bool.and_eq_true] at h
    refine listGood_last_line b e (.cons u us) he ?_
    simp only [listGood, Bool.and_eq_true]
    exact h.2
end

theorem listGood_append : ∀ (b : Int) (ts : TopicList) (t : Topic),
    listGood b (ts.append t) = (listGood b ts && topicGood b t)
  | b, .nil, t => by
    show listGood b (.cons t .nil) = _
    simp [listGood]
  | b, .cons u us, t => by
    show listGood b (.cons u (us.append t)) = _
    simp only [listGood, listGood_append b us t]
    rw [Bool.and_assoc]

theorem listGood_lastOption : ∀ (b : Int) (ts : TopicList) (t : Topic),
    listGood b ts = true → ts.lastOption = some t → topicGood b t = true
  | b, .nil, t, _, hl => by simp [TopicList.lastOption] at hl
  | b, .cons u .nil, t, h, hl => by
    simp only [TopicList.lastOption] at hl
    simp only [listGood, Bool.and_eq_true] at h
    rw [← Option.some_inj.mp hl]
    exact h.1
  | b, .cons u (.cons v vs), t, h, hl => by
    simp only [listGood, Bool.and_eq_true] at h
    refine listGood_lastOption b (.cons v vs) t ?_ hl
    simp only [listGood, Bool.and_eq_true]
    exact h.2

/-- Goodness of one stack entry relative to the enclosing chapter's
    line_start b: every node hanging off it satisfies the span invariant
    and ends at or after b. -/
def entryGood (b : Int) : Int × SNode → Bool
  | (_, .top t) => topicGood b t
  | (_, .chap c) => listGood b c.sections

def stackGood (b : Int) (stk : List (Int × SNode)) : Bool := stk.all (entryGood b)

/-- The line_start of the chapter at the bottom of the stack, if the bottom
    is a chapter. -/
def stackBoundL (stk : List (Int × SNode)) : Option Int :=
  match stk.getLast? with
  | some (_, .chap c) => some c.line_start
  | _ => none

def finishedGood (st : BuildSt) : Prop :=
  ∀ c ∈ st.finished, listGood c.line_start c.sections = true

/-- The loop invariant for the span property, at the point where i lines
    have been consumed; seen records whether a heading line has occurred. -/
def C3Inv (i : Nat) (st : BuildSt) (seen : Bool) : Prop :=
  st.blockStart ≤ i ∧
  (st.block ≠ [] → st.blockStart + st.blanks + 1 ≤ i) ∧
  (seen = false → st.stack = [] ∧ st.block = []) ∧
  (seen = true → st.stack ≠ []) ∧
  (∀ b, stackBoundL st.stack = some b →
    (b + (st.blanks : Int) + 1 ≤ (i : Int) ∧ stackGood b st.stack = true)) ∧
  finishedGood st ∧
  stackOKb st.stack = true

theorem stackBoundL_cons_attach (l : Int) (n : SNode) (t : Topic)
    (rest : List (Int × SNode)) :
    stackBoundL ((l, attachChild n t) :: rest) = stackBoundL ((l, n) :: rest) := by
  unfold stackBoundL
  cases rest with
  | nil =>
    cases n with
    | chap c => rfl
    | top tt => cases tt; rfl
  | cons b rs => rw [List.getLast?_cons_cons, List.getLast?_cons_cons]

theorem entryGood_attach (b : Int) (l : Int) (n : SNode) (t : Topic)
    (hn : entryGood b (l, n) = true) (ht : topicGood b t = true) :
    entryGood b (l, attachChild n t) = true := by
  cases n with
  | chap c =>
    show listGood b (c.sections.append t) = true
    rw [listGood_append]
    simp only [Bool.and_eq_true]
    exact ⟨hn, ht⟩
  | top tt =>
    cases tt with
    | mk ti lv co ct s e subs =>
      have hn' : topicGood b (.mk ti lv co ct s e subs) = true := hn
      show topicGood b (.mk ti lv co ct s e (subs.append t)) = true
      simp only [topicGood, Bool.and_eq_true, decide_eq_true_eq] at hn' ⊢
      refine ⟨hn'.1, ?_⟩
      rw [listGood_append]
      simp only [Bool.and_eq_true]
      exact ⟨hn'.2, ht⟩

theorem add_content_fields (st : BuildSt) (blk : List String) (bs : Nat) (be : Int) :
    (add_content_to_hierarchy st blk bs be).finished = st.finished ∧
    (add_content_to_hierarchy st blk bs be).blanks = st.blanks ∧
    (add_content_to_hierarchy st blk bs be).blockStart = st.blockStart ∧
    (add_content_to_hierarchy st blk bs be).block = st.block := by
  unfold add_content_to_hierarchy
  split
  · exact ⟨rfl, rfl, rfl, rfl⟩
  · exact ⟨rfl, rfl, rfl, rfl⟩
  · exact ⟨rfl, rfl, rfl, rfl⟩

theorem add_content_stackBound (st : BuildSt) (blk : List String) (bs : Nat) (be : Int) :
    stackBoundL (add_content_to_hierarchy st blk bs be).stack = stackBoundL st.stack := by
  unfold add_content_to_hierarchy
  split
  · rfl
  · rfl
  · rename_i heq
    rw [heq, stackBoundL_cons_attach]

theorem add_content_stackGood (st : BuildSt) (blk : List String) (bs : Nat) (be : Int)
    (b : Int) (hg : stackGood b st.stack = true) (hbe : b ≤ be) (hbs : (bs : Int) ≤ be) :
    stackGood b (add_content_to_hierarchy st blk bs be).stack = true := by
  unfold add_content_to_hierarchy
  split
  · exact hg
  · exact hg
  · rename_i lvl node rest x xs heq
    rw [heq] at hg
    unfold stackGood at hg ⊢
    simp only [List.all_cons, Bool.and_eq_true] at hg ⊢
    refine ⟨?_, hg.2⟩
    refine entryGood_attach b lvl node _ hg.1 ?_
    simp only [topicGood, Bool.and_eq_true, decide_eq_true_eq]
    refine ⟨⟨hbe, hbs⟩, rfl⟩

theorem popOnce_good (st : BuildSt) (hok : stackOKb st.stack = true)
    (hb : ∀ b, stackBoundL st.stack = some b → stackGood b st.stack = true)
    (hf : finishedGood st) :
    (∀ b, stackBoundL (popOnce st).stack = some b →
      stackGood b (popOnce st).stack = true) ∧
    finishedGood (popOnce st) ∧
    (stackBoundL (popOnce st).stack = stackBoundL st.stack ∨
      stackBoundL (popOnce st).stack = none) ∧
    stackOKb (popOnce st).stack = true ∧
    (popOnce st).blanks = st.blanks := by
  obtain ⟨fin, stk, blk, bs, bl⟩ := st
  cases stk with
  | nil => exact ⟨hb, hf, Or.inl rfl, hok, rfl⟩
  | cons p rest =>
    obtain ⟨l, n⟩ := p
    cases n with
    | chap c =>
      cases rest with
      | nil =>
        have hpop : popOnce ⟨fin, [(l, .chap c)], blk, bs, bl⟩ =
            ⟨fin ++ [c], [], blk, bs, bl⟩ := rfl
        rw [hpop]
        refine ⟨?_, ?_, Or.inr rfl, rfl, rfl⟩
        · intro b hbb
          simp [stackBoundL] at hbb
        · intro c' hc'
          show listGood c'.line_start c'.sections = true
          rcases List.mem_append.mp hc' with hc1 | hc2
          · exact hf c' hc1
          · have heq : c' = c := by simpa using hc2
            subst heq
            have hsb : stackBoundL [((l : Int), SNode.chap c')] = some c'.line_start := rfl
            have hg := hb c'.line_start hsb
            unfold stackGood at hg
            simp only [List.all_cons, List.all_nil, Bool.and_eq_true] at hg
            exact hg.1
      | cons q rs =>
        exfalso
        simp only [stackOKb, Bool.and_eq_true] at hok
        have hchap : SNode.isTop (.chap c) = true := hok.1
        simp [SNode.isTop] at hchap
    | top t =>
      cases rest with
      | nil =>
        have hpop : popOnce ⟨fin, [(l, .top t)], blk, bs, bl⟩ =
            ⟨fin, [], blk, bs, bl⟩ := rfl
        rw [hpop]
        refine ⟨?_, hf, Or.inr rfl, rfl, rfl⟩
        intro b hbb
        simp [stackBoundL] at hbb
      | cons q rs =>
        obtain ⟨pl, pn⟩ := q
        have hpop : popOnce ⟨fin, (l, .top t) :: (pl, pn) :: rs, blk, bs, bl⟩ =
            ⟨fin, (pl, attachChild pn t) :: rs, blk, bs, bl⟩ := rfl
        rw [hpop]
        have hbeq : stackBoundL ((pl, attachChild pn t) :: rs) =
            stackBoundL ((l, .top t) :: (pl, pn) :: rs) := by
          rw [stackBoundL_cons_attach]
          unfold stackBoundL
          rw [List.getLast?_cons_cons]
        refine ⟨?_, hf, Or.inl hbeq, ?_, rfl⟩
        · intro b hbb
          rw [hbeq] at hbb
          have hg := hb b hbb
          unfold stackGood at hg ⊢
          simp only [List.all_cons, Bool.and_eq_true] at hg ⊢
          refine ⟨?_, hg.2.2⟩
          exact entryGood_attach b pl pn t hg.2.1 hg.1
        · show stackOKb ((pl, attachChild pn t) :: rs) = true
          rw [stackOKb_cons_attach]
          simp only [stackOKb, Bool.and_eq_true] at hok
          cases rs with
          | nil => rfl
          | cons w ws => exact hok.2

theorem collapseN_good (n : Nat) : ∀ (st : BuildSt),
    stackOKb st.stack = true →
    (∀ b, stackBoundL st.stack = some b → stackGood b st.stack = true) →
    finishedGood st →
    ((∀ b, stackBoundL (collapseN n st).stack = some b →
        stackGood b (collapseN n st).stack = true) ∧
      finishedGood (collapseN n st) ∧ stackOKb (collapseN n st).stack = true ∧
      (collapseN n st).blanks = st.blanks ∧ (collapseN n st).block = st.block) := by
  induction n with
  | zero => intro st hok hb hf; exact ⟨hb, hf, hok, rfl, rfl⟩
  | succ n ih =>
    intro st hok hb hf
    obtain ⟨p1, p2, _, p4, p5⟩ := popOnce_good st hok hb hf
    have hblk : (popOnce st).block = st.block := by
      obtain ⟨fin, stk, blk, bs, bl⟩ := st
      cases stk with
      | nil => rfl
      | cons p rest =>
        obtain ⟨l, nn⟩ := p
        cases nn with
        | chap c => rfl
        | top t =>
          cases rest with
          | nil => rfl
          | cons q rs => obtain ⟨pl, pn⟩ := q; rfl
    obtain ⟨q1, q2, q3, q4, q5⟩ := ih (popOnce st) p4 p1 p2
    exact ⟨q1, q2, q3, q4.trans p5, q5.trans hblk⟩

theorem popOnce_block (st : BuildSt) : (popOnce st).block = st.block := by
  obtain ⟨fin, stk, blk, bs, bl⟩ := st
  cases stk with
  | nil => rfl
  | cons p rest =>
    obtain ⟨l, nn⟩ := p
    cases nn with
    | chap c => rfl
    | top t =>
      cases rest with
      | nil => rfl
      | cons q rs => obtain ⟨pl, pn⟩ := q; rfl

theorem popWhileN_good (lvl : Int) (n : Nat) : ∀ (st : BuildSt),
    stackOKb st.stack = true →
    (∀ b, stackBoundL st.stack = some b → stackGood b st.stack = true) →
    finishedGood st →
    ((∀ b, stackBoundL (popWhileN n lvl st).stack = some b →
        stackGood b (popWhileN n lvl st).stack = true) ∧
      finishedGood (popWhileN n lvl st) ∧
      stackOKb (popWhileN n lvl st).stack = true ∧
      (popWhileN n lvl st).blanks = st.blanks ∧
      (popWhileN n lvl st).block = st.block ∧
      (stackBoundL (popWhileN n lvl st).stack = stackBoundL st.stack ∨
        stackBoundL (popWhileN n lvl st).stack = none)) := by
  induction n with
  | zero => intro st hok hb hf; exact ⟨hb, hf, hok, rfl, rfl, Or.inl rfl⟩
  | succ n ih =>
    intro st hok hb hf
    unfold popWhileN
    split
    · split
      · obtain ⟨p1, p2, p3, p4, p5⟩ := popOnce_good st hok hb hf
        obtain ⟨q1, q2, q3, q4, q5, q6⟩ := ih (popOnce st) p4 p1 p2
        refine ⟨q1, q2, q3, q4.trans p5, q5.trans (popOnce_block st), ?_⟩
        rcases q6 with hq | hq
        · rcases p3 with hp | hp
          · exact Or.inl (hq.trans hp)
          · exact Or.inr (hq.trans hp)
        · exact Or.inr hq
      · exact ⟨hb, hf, hok, rfl, rfl, Or.inl rfl⟩
    · exact ⟨hb, hf, hok, rfl, rfl, Or.inl rfl⟩

theorem flushAtHeading_C3 (i : Nat) (st : BuildSt)
    (hB : st.block ≠ [] → st.blockStart + 1 ≤ i)
    (hE : ∀ b, stackBoundL st.stack = some b →
      (b + 1 ≤ (i : Int) ∧ stackGood b st.stack = true))
    (hCD : st.block ≠ [] → st.stack ≠ [])
    (hF : finishedGood st) (hG : stackOKb st.stack = true) :
    (flushAtHeading i st).block = [] ∧
    stackBoundL (flushAtHeading i st).stack = stackBoundL st.stack ∧
    (∀ b, stackBoundL (flushAtHeading i st).stack = some b →
      stackGood b (flushAtHeading i st).stack = true) ∧
    finishedGood (flushAtHeading i st) ∧
    stackOKb (flushAtHeading i st).stack = true ∧
    (flushAtHeading i st).blanks = st.blanks ∧
    (flushAtHeading i st).finished = st.finished := by
  unfold flushAtHeading
  split
  · rename_i hcond
    simp only [Bool.and_eq_true, Bool.not_eq_true', List.isEmpty_eq_false] at hcond
    have hfld := add_content_fields st st.block st.blockStart ((i : Int) - 1)
    have hsb := add_content_stackBound st st.block st.blockStart ((i : Int) - 1)
    have hokeq := (add_content_proj st st.block st.blockStart ((i : Int) - 1)).2
    refine ⟨rfl, hsb, ?_, ?_, ?_, ?_, ?_⟩
    · intro b hbb
      rw [hsb] at hbb
      obtain ⟨hb1, hb2⟩ := hE b hbb
      refine add_content_stackGood st st.block st.blockStart ((i : Int) - 1) b hb2 ?_ ?_
      · omega
      · have := hB hcond.1
        omega
    · intro c hc
      rw [hfld.1] at hc
      exact hF c hc
    · rw [hokeq]
      exact hG
    · exact hfld.2.1
    · exact hfld.1
  · rename_i hcond
    have hblk : st.block = [] := by
      by_contra hne
      exact hcond (by
        simp only [Bool.and_eq_true, Bool.not_eq_true', List.isEmpty_eq_false]
        exact ⟨hne, hCD hne⟩)
    refine ⟨hblk, rfl, fun b hbb => (hE b hbb).2, hF, hG, rfl, rfl⟩

theorem applyHeading_C3 (i : Nat) (hi : HeadingInfo) (st : BuildSt)
    (hE : ∀ b, stackBoundL st.stack = some b →
      (b + 1 ≤ (i : Int) ∧ stackGood b st.stack = true))
    (hF : finishedGood st) (hG : stackOKb st.stack = true) :
    (applyHeading i hi st).stack ≠ [] ∧
    (∀ b, stackBoundL (applyHeading i hi st).stack = some b →
      (b ≤ (i : Int) ∧ stackGood b (applyHeading i hi st).stack = true)) ∧
    finishedGood (applyHeading i hi st) ∧
    stackOKb (applyHeading i hi st).stack = true ∧
    (applyHeading i hi st).blanks = st.blanks ∧
    (applyHeading i hi st).block = st.block := by
  unfold applyHeading
  by_cases h1 : hi.level = 1
  · rw [if_pos h1]
    obtain ⟨c1, c2, c3, c4, c5⟩ :=
      collapseN_good st.stack.length st hG (fun b hb => (hE b hb).2) hF
    refine ⟨by simp, ?_, c2, rfl, c4, c5⟩
    intro b hbb
    have hbeq : b = (i : Int) := by
      have : stackBoundL [((1 : Int),
          SNode.chap ⟨hi.title, 1, .nil, (i : Int), 0⟩)] = some (i : Int) := rfl
      rw [this] at hbb
      exact (Option.some_inj.mp hbb).symm
    subst hbeq
    exact ⟨le_refl _, rfl⟩
  · rw [if_neg h1]
    obtain ⟨p1, p2, p3, p4, p5, p6⟩ :=
      popWhileN_good hi.level st.stack.length st hG (fun b hb => (hE b hb).2) hF
    have hbound : ∀ b, stackBoundL (popWhileGE hi.level st).stack = some b →
        b + 1 ≤ (i : Int) := by
      intro b hbb
      rcases p6 with hp | hp
      · have hp' : stackBoundL (popWhileGE hi.level st).stack = stackBoundL st.stack := hp
        exact (hE b (hp' ▸ hbb)).1
      · have hp' : stackBoundL (popWhileGE hi.level st).stack = none := hp
        rw [hp'] at hbb
        exact absurd hbb (by simp)
    constructor
    · simp
    refine ⟨?_, p2, ?_, p4, p5⟩
    · intro b hbb
      have hbb' : stackBoundL (popWhileGE hi.level st).stack = some b := by
        cases hs : (popWhileGE hi.level st).stack with
        | nil =>
          rw [hs] at hbb
          simp [stackBoundL] at hbb
        | cons q rs =>
          rw [hs] at hbb
          unfold stackBoundL at hbb ⊢
          rw [List.getLast?_cons_cons] at hbb
          exact hbb
      have hble := hbound b hbb'
      refine ⟨by omega, ?_⟩
      unfold stackGood
      simp only [List.all_cons, Bool.and_eq_true]
      constructor
      · show topicGood b (.mk hi.title hi.level "" "heading" (i : Int) (i : Int) .nil) = true
        simp only [topicGood, Bool.and_eq_true, decide_eq_true_eq]
        refine ⟨⟨by omega, le_refl _⟩, rfl⟩
      · have := p1 b hbb'
        unfold stackGood at this
        exact this
    · show stackOKb ((hi.level,
        SNode.top (.mk hi.title hi.level "" "heading" (i : Int) (i : Int) .nil)) ::
          (popWhileGE hi.level st).stack) = true
      cases hs : (popWhileGE hi.level st).stack with
      | nil => rfl
      | cons q rs =>
        show (SNode.isTop
          (SNode.top (.mk hi.title hi.level "" "heading" (i : Int) (i : Int) .nil)) &&
            stackOKb (q :: rs)) = true
        rw [← hs]
        have hok' : stackOKb (popWhileGE hi.level st).stack = true := p3
        rw [hok']
        rfl

theorem buildStep_C3 (fmt : Option PyDict) (i : Nat) (line : String) (st : BuildSt)
    (seen : Bool)
    (hline : detect_heading line fmt = none → pyStrip line ≠ "" → seen = true)
    (hinv : C3Inv i st seen) :
    C3Inv (i + 1) (buildStep fmt i line st) (seen || (detect_heading line fmt).isSome) := by
  obtain ⟨hA, hB, hC, hD, hE, hF, hG⟩ := hinv
  unfold buildStep
  by_cases hb : pyStrip line = ""
  · rw [if_pos hb, detect_heading_blank line fmt hb]
    simp only [Option.isSome_none, Bool.or_false]
    unfold blankStep
    split
    · rename_i hcond
      simp only [Bool.and_eq_true, decide_eq_true_eq, Bool.not_eq_true',
        List.isEmpty_eq_false] at hcond
      have hfld := add_content_fields st st.block st.blockStart ((i : Int) - (st.blanks + 1))
      have hsb := add_content_stackBound st st.block st.blockStart ((i : Int) - (st.blanks + 1))
      have hlev := add_content_levels st st.block st.blockStart ((i : Int) - (st.blanks + 1))
      have hokeq := (add_content_proj st st.block st.blockStart ((i : Int) - (st.blanks + 1))).2
      refine ⟨?_, ?_, ?_, ?_, ?_, ?_, ?_⟩
      · show (add_content_to_hierarchy st _ _ _).blockStart ≤ i + 1
        rw [hfld.2.2.1]
        omega
      · intro hne
        exact absurd rfl hne
      · intro h0
        exact absurd (hC h0).2 hcond.1.2
      · intro h0
        intro hnil
        refine hD h0 ?_
        have hm := hlev
        rw [show (add_content_to_hierarchy st st.block st.blockStart
          ((i : Int) - (st.blanks + 1))).stack = [] from hnil] at hm
        exact List.map_eq_nil_iff.mp hm.symm
      · intro b hbb
        show b + (((st.blanks + 1) : Nat) : Int) + 1 ≤ ((i + 1 : Nat) : Int) ∧ _
        rw [show stackBoundL (add_content_to_hierarchy st st.block st.blockStart
          ((i : Int) - (st.blanks + 1))).stack = stackBoundL st.stack from hsb] at hbb
        obtain ⟨he1, he2⟩ := hE b hbb
        constructor
        · push_cast
          omega
        · refine add_content_stackGood st st.block st.blockStart
            ((i : Int) - (st.blanks + 1)) b he2 ?_ ?_
          · omega
          · have := hB hcond.1.2
            omega
      · intro c hc
        rw [hfld.1] at hc
        exact hF c hc
      · show stackOKb (add_content_to_hierarchy st _ _ _).stack = true
        rw [hokeq]
        exact hG
    · refine ⟨by dsimp only; omega, ?_, ?_, hD, ?_, hF, hG⟩
      · intro hne
        have := hB hne
        dsimp only
        omega
      · intro h0
        exact hC h0
      · intro b hbb
        obtain ⟨he1, he2⟩ := hE b hbb
        refine ⟨?_, he2⟩
        push_cast
        omega
  · rw [if_neg hb]
    cases hd : detect_heading line fmt with
    | none =>
      simp only [Option.isSome_none, Bool.or_false]
      have hseen : seen = true := hline hd hb
      refine ⟨by dsimp only; omega, ?_, ?_, hD, ?_, hF, hG⟩
      · intro _
        show st.blockStart + 0 + 1 ≤ i + 1
        omega
      · intro h0
        exact absurd (hseen.symm.trans h0) (by decide)
      · intro b hbb
        obtain ⟨he1, he2⟩ := hE b hbb
        refine ⟨?_, he2⟩
        push_cast
        omega
    | some hi =>
      simp only [Option.isSome_some, Bool.or_true]
      have hB0 : ({ st with blanks := 0 } : BuildSt).block ≠ [] →
          ({ st with blanks := 0 } : BuildSt).blockStart + 1 ≤ i := by
        intro hne
        have := hB hne
        dsimp only
        omega
      have hE0 : ∀ b, stackBoundL ({ st with blanks := 0 } : BuildSt).stack = some b →
          (b + 1 ≤ (i : Int) ∧
            stackGood b ({ st with blanks := 0 } : BuildSt).stack = true) := by
        intro b hbb
        obtain ⟨he1, he2⟩ := hE b hbb
        refine ⟨?_, he2⟩
        have hnn : (0 : Int) ≤ (st.blanks : Int) := by positivity
        omega
      have hCD0 : ({ st with blanks := 0 } : BuildSt).block ≠ [] →
          ({ st with blanks := 0 } : BuildSt).stack ≠ [] := by
        intro hne
        cases hs : seen with
        | true => exact hD hs
        | false => exact absurd (hC hs).2 hne
      obtain ⟨f1, f2, f3, f4, f5, f6, f7⟩ :=
        flushAtHeading_C3 i { st with blanks := 0 } hB0 hE0 hCD0 hF hG
      have hEfl : ∀ b,
          stackBoundL (flushAtHeading i { st with blanks := 0 }).stack = some b →
          (b + 1 ≤ (i : Int) ∧
            stackGood b (flushAtHeading i { st with blanks := 0 }).stack = true) := by
        intro b hbb
        refine ⟨(hE0 b (f2 ▸ hbb)).1, f3 b hbb⟩
      obtain ⟨a1, a2, a3, a4, a5, a6⟩ :=
        applyHeading_C3 i hi (flushAtHeading i { st with blanks := 0 }) hEfl f4 f5
      have hbl0 : (applyHeading i hi (flushAtHeading i { st with blanks := 0 })).blanks
          = 0 := by
        rw [a5, f6]
      have hblk0 : (applyHeading i hi (flushAtHeading i { st with blanks := 0 })).block
          = [] := by
        rw [a6, f1]
      refine ⟨le_refl _, ?_, ?_, fun _ => a1, ?_, a3, a4⟩
      · intro hne
        exact absurd hblk0 hne
      · intro h0
        exact absurd h0 (by decide)
      · intro b hbb
        obtain ⟨ha1, ha2⟩ := a2 b hbb
        refine ⟨?_, ha2⟩
        show b + ((applyHeading i hi (flushAtHeading i { st with blanks := 0 })).blanks :
          Int) + 1 ≤ ((i + 1 : Nat) : Int)
        rw [hbl0]
        push_cast
        omega

theorem buildLoop_C3 (fmt : Option PyDict) : ∀ (ls : List String) (i : Nat) (st : BuildSt)
    (seen : Bool), noPreContentAux fmt ls seen = true → C3Inv i st seen →
    ∃ seen2, C3Inv (i + ls.length) (buildLoop fmt ls i st) seen2 := by
  intro ls
  induction ls with
  | nil =>
    intro i st seen _ hinv
    exact ⟨seen, by simpa using hinv⟩
  | cons l t ih =>
    intro i st seen hnp hinv
    unfold noPreContentAux at hnp
    have hlen : i + (l :: t).length = (i + 1) + t.length := by
      simp [List.length_cons]
      omega
    rw [hlen]
    show ∃ seen2, C3Inv ((i + 1) + t.length) (buildLoop fmt t (i + 1) (buildStep fmt i l st))
      seen2
    cases hd : detect_heading l fmt with
    | some hi =>
      rw [hd] at hnp
      have hstep := buildStep_C3 fmt i l st seen
        (fun h _ => absurd h (by rw [hd]; simp)) hinv
      rw [hd] at hstep
      simp only [Option.isSome_some, Bool.or_true] at hstep
      exact ih (i + 1) (buildStep fmt i l st) true hnp hstep
    | none =>
      rw [hd] at hnp
      by_cases hb : pyStrip l = ""
      · rw [if_pos hb] at hnp
        have hstep := buildStep_C3 fmt i l st seen
          (fun _ hnb => absurd hb hnb) hinv
        rw [hd] at hstep
        simp only [Option.isSome_none, Bool.or_false] at hstep
        exact ih (i + 1) (buildStep fmt i l st) seen hnp hstep
      · rw [if_neg hb] at hnp
        simp only [Bool.and_eq_true] at hnp
        have hstep := buildStep_C3 fmt i l st seen (fun _ _ => hnp.1) hinv
        rw [hd] at hstep
        simp only [Option.isSome_none, Bool.or_false] at hstep
        exact ih (i + 1) (buildStep fmt i l st) seen hnp.2 hstep

theorem C3Inv_init : C3Inv 0 initSt false := by
  refine ⟨le_refl _, ?_, fun _ => ⟨rfl, rfl⟩, ?_, ?_, ?_, rfl⟩
  · intro hne
    exact absurd rfl hne
  · intro h0
    exact absurd h0 (by decide)
  · intro b hbb
    simp [stackBoundL, initSt] at hbb
  · intro c hc
    simp [initSt] at hc

/-- C3 amended: when no content line precedes the first heading, every node
    of the built document — every Chapter and every Topic, heading or
    content, at any depth — satisfies line_start ≤ line_end. -/
theorem line_spans_ordered_when_no_preheading_content (lines : List String)
    (fmt : Option PyDict) (h : noPreContentB fmt lines = true) :
    (buildChapters lines fmt).all chapterOkB = true := by
  obtain ⟨seen2, hinv⟩ := buildLoop_C3 fmt lines 0 initSt false h C3Inv_init
  obtain ⟨hA, hB, hC, hD, hE, hF, hG⟩ := hinv
  unfold buildChapters
  rw [List.all_eq_true]
  intro c' hc'
  rw [List.mem_map] at hc'
  obtain ⟨c, hcmem, rfl⟩ := hc'
  set st := buildLoop fmt lines 0 initSt with hst
  have hlen0 : (0 : Nat) + lines.length = lines.length := by omega
  rw [hlen0] at hA hB hE
  have hst2 : ∀ (st2 : BuildSt), finishedGood st2 → stackOKb st2.stack = true →
      (∀ b, stackBoundL st2.stack = some b → stackGood b st2.stack = true) →
      c ∈ (collapseAll st2).finished → chapterOkB ({ c with line_end := chapterEnd c }) = true := by
    intro st2 hf2 hok2 hb2 hmem
    obtain ⟨_, q2, _, _, _⟩ := collapseN_good st2.stack.length st2 hok2 hb2 hf2
    have hgood : listGood c.line_start c.sections = true := q2 c hmem
    unfold chapterOkB
    simp only [Bool.and_eq_true, decide_eq_true_eq]
    constructor
    · show c.line_start ≤ chapterEnd c
      unfold chapterEnd
      cases hlast : c.sections.lastOption with
      | none => exact le_refl _
      | some t =>
        exact topicGood_last_line c.line_start t (listGood_lastOption c.line_start c.sections t hgood hlast)
    · show listOk c.sections = true
      exact listGood_implies_listOk c.line_start c.sections hgood
  revert hcmem
  split
  · rename_i hcond
    simp only [Bool.and_eq_true, Bool.not_eq_true', List.isEmpty_eq_false] at hcond
    intro hcmem
    refine hst2 _ ?_ ?_ ?_ hcmem
    · intro cc hcc
      rw [(add_content_fields st st.block st.blockStart ((lines.length : Int) - 1)).1] at hcc
      exact hF cc hcc
    · rw [(add_content_proj st st.block st.blockStart ((lines.length : Int) - 1)).2]
      exact hG
    · intro b hbb
      rw [add_content_stackBound] at hbb
      obtain ⟨he1, he2⟩ := hE b hbb
      refine add_content_stackGood st st.block st.blockStart ((lines.length : Int) - 1) b
        he2 ?_ ?_
      · omega
      · have := hB hcond.1
        omega
  · intro hcmem
    exact hst2 st hF hG (fun b hbb => (hE b hbb).2) hcmem

/-- C3 amended witness: the theorem applied to a document whose content
    follows its heading. -/
theorem line_spans_ordered_witness :
    noPreContentB none ["1 Ch", "hello"] = true ∧
    (buildChapters ["1 Ch", "hello"] none).all chapterOkB = true :=
  ⟨by decide, line_spans_ordered_when_no_preheading_content ["1 Ch", "hello"] none (by decide)⟩
